import Mathlib

/-!
# oak: an ordered tree container (`src/oak.hpp`)

A shallow embedding of `oak::tree<K, V, P>` and a verification of its contract.

`tree` derives from `std::map<K, tree>` and adds two members, `V value` and
`tree* parent`.  The embedding keeps exactly these three components:

* the children map is a key-ordered association list (`Forest`), and the `std::map`
  members the source calls (`find`, `insert(value_type)`, `erase(key)`, `operator[]`)
  are modelled by the usual lower-bound scan along the comparator;
* `value` is a field of type `V`; `zero<V>()` is `0` and `+=` is `+`;
* `parent` is assigned at three places only: both constructors store `this`
  (lines 47, 51) and `insert` stores the address of the node whose map holds the
  child (line 85).  `operator=` never copies it.  Nodes of a `std::map` never move,
  so the pointer of a node is always one of these two addresses, and the field is
  modelled by the two-valued type `Link`.
-/

namespace oak

/-- The `parent` pointer of a node: `self` when `parent == this` (lines 47, 51),
`owner` when it holds the address of the node whose children map stores this node
(line 85). -/
inductive Link where
  | self
  | owner
deriving DecidableEq, Repr

mutual
/-- A node of `oak::tree<K, V, P>`: its `value`, its `parent` pointer and the inherited
`std::map<K, tree>` of children. -/
inductive Tree (K V : Type) where
  | node (value : V) (parent : Link) (children : Forest K V)
/-- The inherited `std::map<K, tree<K, V, P>, P>`: the entries in iteration order. -/
inductive Forest (K V : Type) where
  | nil
  | cons (key : K) (child : Tree K V) (rest : Forest K V)
end

mutual
/-- Decidable equality of nodes. -/
def Tree.decEq {K V : Type} [DecidableEq K] [DecidableEq V] :
    (a b : Tree K V) → Decidable (a = b)
  | .node v p c, .node v2 p2 c2 =>
    if hv : v = v2 then
      if hp : p = p2 then
        match Forest.decEq c c2 with
        | isTrue hc => isTrue (by rw [hv, hp, hc])
        | isFalse hc => isFalse (fun h => hc (by cases h; rfl))
      else isFalse (fun h => hp (by cases h; rfl))
    else isFalse (fun h => hv (by cases h; rfl))
/-- Decidable equality of children maps. -/
def Forest.decEq {K V : Type} [DecidableEq K] [DecidableEq V] :
    (a b : Forest K V) → Decidable (a = b)
  | .nil, .nil => isTrue rfl
  | .nil, .cons _ _ _ => isFalse (fun h => by cases h)
  | .cons _ _ _, .nil => isFalse (fun h => by cases h)
  | .cons k c r, .cons k2 c2 r2 =>
    if hk : k = k2 then
      match Tree.decEq c c2 with
      | isTrue hc =>
        match Forest.decEq r r2 with
        | isTrue hr => isTrue (by rw [hk, hc, hr])
        | isFalse hr => isFalse (fun h => hr (by cases h; rfl))
      | isFalse hc => isFalse (fun h => hc (by cases h; rfl))
    else isFalse (fun h => hk (by cases h; rfl))
end

instance {K V : Type} [DecidableEq K] [DecidableEq V] : DecidableEq (Tree K V) :=
  Tree.decEq

instance {K V : Type} [DecidableEq K] [DecidableEq V] : DecidableEq (Forest K V) :=
  Forest.decEq

section Model

set_option linter.unusedSectionVars false

variable {K V : Type}

/-! ## Members -/

/-- `tree::get()` (lines 99-105): the member `value`. -/
def Tree.get : Tree K V → V
  | .node v _ _ => v

/-- The member `parent`. -/
def Tree.parent : Tree K V → Link
  | .node _ p _ => p

/-- `tree::children()` (lines 183-189): the node seen as its base-class map. -/
def Tree.children : Tree K V → Forest K V
  | .node _ _ cs => cs

/-- An assignment to the member `parent` of a node. -/
def Tree.setParent (p : Link) : Tree K V → Tree K V
  | .node v _ cs => .node v p cs

/-- `tree::tree()` (lines 46-48): an empty map, `value(zero<V>())`, `parent = this`. -/
def Tree.new [Zero V] : Tree K V := .node 0 .self .nil

/-- `tree::set` (lines 107-111): `get() = t`. -/
def Tree.set (t : Tree K V) (v : V) : Tree K V :=
  match t with
  | .node _ p cs => .node v p cs

/-- `tree::is_root` (lines 199-201): `parent == this`. -/
def Tree.is_root (t : Tree K V) : Bool :=
  match t.parent with
  | .self => true
  | .owner => false

/-! ## The `std::map` base class -/

/-- `std::map::size`. -/
def Forest.size : Forest K V → Nat
  | .nil => 0
  | .cons _ _ rest => rest.size + 1

/-- The keys of a map in iteration order. -/
def Forest.keys : Forest K V → List K
  | .nil => []
  | .cons k _ rest => k :: rest.keys

/-- The entries of a map in iteration order. -/
def Forest.toList : Forest K V → List (K × Tree K V)
  | .nil => []
  | .cons k c rest => (k, c) :: rest.toList

variable [LinearOrder K]

/-- `std::map::find`: the entry equivalent to `k`, `none` standing for `end()`. -/
def Forest.find (k : K) : Forest K V → Option (Tree K V)
  | .nil => none
  | .cons k2 c rest =>
    if k2 < k then Forest.find k rest
    else if k < k2 then none
    else some c

/-- `std::map::insert(const value_type&)`: adds the entry at its place in key order when
the key is absent and leaves the map as it is when the key is present. -/
def Forest.mapInsert (k : K) (c : Tree K V) : Forest K V → Forest K V
  | .nil => .cons k c .nil
  | .cons k2 c2 rest =>
    if k2 < k then .cons k2 c2 (Forest.mapInsert k c rest)
    else if k < k2 then .cons k c (.cons k2 c2 rest)
    else .cons k2 c2 rest

/-- `std::map::erase(const key_type&)`: removes the entry equivalent to `k`, if any. -/
def Forest.mapErase (k : K) : Forest K V → Forest K V
  | .nil => .nil
  | .cons k2 c rest =>
    if k2 < k then .cons k2 c (Forest.mapErase k rest)
    else if k < k2 then .cons k2 c rest
    else rest

/-- A write through a reference to the entry stored under `k`: the entry becomes `g` of
what it was. -/
def Forest.modify (k : K) (g : Tree K V → Tree K V) : Forest K V → Forest K V
  | .nil => .nil
  | .cons k2 c rest =>
    if k2 < k then .cons k2 c (Forest.modify k g rest)
    else if k < k2 then .cons k2 c rest
    else .cons k2 (g c) rest

/-- `std::map::operator[]`, the state it leaves: a default-constructed `tree()` is
inserted under `k` when the key is absent. -/
def Forest.subscript [Zero V] (k : K) (f : Forest K V) : Forest K V :=
  f.mapInsert k Tree.new

/-- Whether the first key of a map, if any, is above `k`. -/
def Forest.headAbove (k : K) : Forest K V → Bool
  | .nil => true
  | .cons k2 _ _ => decide (k < k2)

/-- The `std::map` invariant of one map: keys strictly increasing along the iteration. -/
def Forest.sorted : Forest K V → Bool
  | .nil => true
  | .cons k _ rest => rest.headAbove k && rest.sorted

mutual
/-- The `std::map` invariant at every level of a tree. -/
def Tree.wf : Tree K V → Bool
  | .node _ _ cs => Forest.wf cs
/-- The `std::map` invariant of a map and of every node below it. -/
def Forest.wf : Forest K V → Bool
  | .nil => true
  | .cons k c rest => rest.headAbove k && (c.wf && rest.wf)
end

/-! ## Lookup -/

/-- `tree::empty(const K&)` (lines 167-169): `end() == find(t)`. -/
def Tree.empty (t : Tree K V) (k : K) : Bool :=
  (t.children.find k).isNone

/-- `tree::has` (lines 171-173): `!empty(t)`. -/
def Tree.has (t : Tree K V) (k : K) : Bool :=
  !(t.empty k)

/-- A `tree&` handed out by a node: the entry of its own map stored under a key, or the
function-local static of `invalid<tree>()`. -/
inductive Ref (K : Type) where
  | child (k : K)
  | invalid
deriving DecidableEq, Repr

/-- `tree::is_valid` (lines 175-177): `this != &invalid<tree>()`, a comparison of
addresses; no entry of a map is the static. -/
def Ref.is_valid : Ref K → Bool
  | .child _ => true
  | .invalid => false

/-- The node a reference denotes, given the node that handed it out and the present
content of the static of `invalid<tree>()`. -/
def Ref.deref (self sentinel : Tree K V) : Ref K → Option (Tree K V)
  | .child k => self.children.find k
  | .invalid => some sentinel

/-! ## Copy, clone and merge -/

mutual
/-- `tree::tree(const tree&)` (lines 50-53): the new object starts empty with
`parent = this` and runs `operator=(t)`, which for a distinct object is the loop of
`operator+=` followed by `get() = t.get()`. -/
def Tree.copy : Tree K V → Tree K V
  | .node v _ cs => .node v .self (Forest.mergeInto cs .nil)
/-- The loop of `operator+=` (lines 68-70): for every entry of the source map, in
iteration order, `this->map::insert(*it)`; the entry that `std::map::insert` stores is
built by the copy constructor of `tree`. -/
def Forest.mergeInto : Forest K V → Forest K V → Forest K V
  | .nil, dst => dst
  | .cons k c rest, dst => Forest.mergeInto rest (dst.mapInsert k (Tree.copy c))
end

/-- The argument of `operator=(const tree&)` and `operator+=(const tree&)`: the object
itself (`this == &t`) or another object. -/
inductive Arg (K V : Type) where
  | this
  | other (t : Tree K V)

/-- `tree::operator+=(const tree&)` (lines 66-74), also `tree::merge` (lines 155-157). -/
def Tree.opAddAssign (self : Tree K V) : Arg K V → Tree K V
  | .this => self
  | .other t => .node t.get self.parent (Forest.mergeInto t.children self.children)

/-- `tree::operator=(const tree&)` (lines 56-63), also `tree::clone` and `tree::assign`
(lines 139-144): `clear()`, `get() = zero<V>()`, `operator+=(t)`. -/
def Tree.opAssign [Zero V] (self : Tree K V) : Arg K V → Tree K V
  | .this => self
  | .other t => Tree.opAddAssign (.node 0 self.parent .nil) (.other t)

/-- `tree::merge` (lines 155-157). -/
def Tree.merge (self : Tree K V) (t : Arg K V) : Tree K V :=
  self.opAddAssign t

/-- `tree::invalid<tree>()` (lines 36-40): the state `t = T()` leaves in the static. -/
def Tree.invalid [Zero V] (sentinel : Tree K V) : Tree K V :=
  sentinel.opAssign (.other Tree.new)

/-- What a call of `at` leaves behind and hands out: the node it was called on, the
static of `invalid<tree>()`, and the returned reference. -/
structure AtResult (K V : Type) where
  self : Tree K V
  sentinel : Tree K V
  ref : Ref K

/-- `tree::at` (lines 77-80), also `operator()` (lines 163-165): `find`, then the found
entry or `invalid<tree>()`. -/
def Tree.at_ [Zero V] (t : Tree K V) (k : K) (sentinel : Tree K V) : AtResult K V :=
  match t.children.find k with
  | some _ => ⟨t, sentinel, .child k⟩
  | none => ⟨t, Tree.invalid sentinel, .invalid⟩

/-- `tree::insert` (lines 83-87), also `operator[]` (lines 159-161).  Both `children[t]`
of line 85 are `std::map::operator[]`; the assignment between them has `this == &t`;
`.parent = this` stores the address of the node `insert` runs on.  The first component is
the node after the call, the second the returned `children[t]`. -/
def Tree.insert [Zero V] (t : Tree K V) (k : K) : Tree K V × Ref K :=
  match t with
  | .node v p cs =>
    let cs1 := (cs.subscript k).subscript k
    let cs2 := cs1.modify k (fun c => (c.opAssign .this).setParent .owner)
    (.node v p (cs2.subscript k), .child k)

/-- `tree::erase` (lines 90-96): `find`, and `map::erase(t)` when found. -/
def Tree.erase (t : Tree K V) (k : K) : Tree K V :=
  match t with
  | .node v p cs =>
    match cs.find k with
    | some _ => .node v p (cs.mapErase k)
    | none => .node v p cs

/-! ## Aggregation -/

mutual
/-- `tree::getdown` (lines 129-135): `V value = get()`, then the loop over the children. -/
def Tree.getdown [Add V] : Tree K V → V
  | .node v _ cs => Forest.getdownLoop cs v
/-- The loop of `getdown` (lines 131-133): `value += it->second.getdown()`. -/
def Forest.getdownLoop [Add V] : Forest K V → V → V
  | .nil, acc => acc
  | .cons _ c rest, acc => Forest.getdownLoop rest (acc + Tree.getdown c)
end

/-! ## Specification vocabulary -/

mutual
/-- A node with every `parent` pointer disregarded (all set to `self`): what is left is
the value of every node and the keys of every map, that is, structure and values. -/
def Tree.shape : Tree K V → Tree K V
  | .node v _ cs => .node v .self (Forest.shape cs)
/-- A map with every `parent` pointer below it disregarded. -/
def Forest.shape : Forest K V → Forest K V
  | .nil => .nil
  | .cons k c rest => .cons k (Tree.shape c) (Forest.shape rest)
end

mutual
/-- The values of all nodes of a subtree, in pre-order. -/
def Tree.values : Tree K V → List V
  | .node v _ cs => v :: Forest.values cs
/-- The values of all nodes stored in a map or below it, in pre-order. -/
def Forest.values : Forest K V → List V
  | .nil => []
  | .cons _ c rest => Tree.values c ++ Forest.values rest
end

/-- A tree over natural-number keys with integer values: value 7, children `1 ↦ 5` (which
has a child `9 ↦ 2`) and `3 ↦ 0`; both children were attached by `insert`. -/
def sample : Tree Nat Int :=
  .node 7 .self
    (.cons 1 (.node 5 .owner (.cons 9 (.node 2 .owner .nil) .nil))
      (.cons 3 (.node 0 .owner .nil) .nil))

/-- Concatenation of two entry sequences. -/
def Forest.append : Forest K V → Forest K V → Forest K V
  | .nil, g => g
  | .cons k c rest, g => .cons k c (Forest.append rest g)

/-- See `mergeA`. -/
def mergeB : Tree Nat Int :=
  .node 20 .self (.cons 1 (.node 2 .owner .nil) (.cons 2 (.node 3 .owner .nil) .nil))

/-! ## Navigation

A node of a tree is addressed by the keys leading to it from the object the tree hangs
from (the empty path is that object).  `up()` and `root()` follow `parent` pointers; a
pointer `owner` leads from the node at `p ++ [k]` to the node at `p`. -/

/-- The node reached from `t` along a path of keys, each step being a `find`. -/
def Tree.nodeAt : List K → Tree K V → Option (Tree K V)
  | [], t => some t
  | k :: ks, t =>
    match t.children.find k with
    | some c => Tree.nodeAt ks c
    | none => none

/-- `tree::up` (lines 191-197): `*parent`, for the node at path `p` of `r`.  The result is
`none` when there is no node at `p`, or when `p` is empty and the pointer does not point to
the object itself (its target is then not a node of `r`). -/
def Tree.up (r : Tree K V) (p : List K) : Option (List K) :=
  match r.nodeAt p with
  | none => none
  | some n =>
    match n.parent with
    | .self => some p
    | .owner => if p = [] then none else some p.dropLast

/-- `tree::root` (lines 203-215) run for at most `fuel` calls from the node at path `p`:
`if (!is_root()) return parent->root(); return *this;`. -/
def Tree.rootFrom (r : Tree K V) : Nat → List K → Option (List K)
  | 0, _ => none
  | fuel + 1, p =>
    match r.nodeAt p with
    | none => none
    | some n =>
      if n.is_root = true then some p
      else
        match r.up p with
        | some q => Tree.rootFrom r fuel q
        | none => none

/-- `tree::root` (lines 203-215) for the node at path `p` of `r`; one call per node on the
way up suffices. -/
def Tree.root (r : Tree K V) (p : List K) : Option (List K) :=
  r.rootFrom (p.length + 1) p

/-- What a statement does to the node it has reached. -/
inductive Action (K V : Type) where
  | touch
  | set (v : V)
  | erase (k : K)

/-- One statement `root[k1][k2]...[kn]`, `root[k1]...[kn].set(v)` or
`root[k1]...[kn].erase(k)`: every `[ki]` is `insert(ki)`, and the rest of the statement
acts through the returned reference on the entry stored under `ki`. -/
def Tree.applyAt [Zero V] : List K → Action K V → Tree K V → Tree K V
  | [], .touch, t => t
  | [], .set v, t => t.set v
  | [], .erase k, t => t.erase k
  | k :: ks, act, t =>
    match (t.insert k).1 with
    | .node v p cs => .node v p (cs.modify k (Tree.applyAt ks act))

/-- The tree a sequence of such statements builds from a freshly constructed `tree()`. -/
def Tree.build [Zero V] (prog : List (List K × Action K V)) : Tree K V :=
  prog.foldl (fun t c => t.applyAt c.1 c.2) Tree.new

mutual
/-- Every node below this one has its `parent` pointing to the node that stores it. -/
def Tree.linked : Tree K V → Bool
  | .node _ _ cs => Forest.linked cs
/-- Every entry of the map has `parent` pointing to the owner of the map, and so on below. -/
def Forest.linked : Forest K V → Bool
  | .nil => true
  | .cons _ c rest => decide (c.parent = .owner) && (Tree.linked c && Forest.linked rest)
end

/-- A source tree built by `insert` and `set`: value 4, one child `1 ↦ 6` with a child
`2 ↦ 8`. -/
def copySource : Tree Nat Int :=
  Tree.build [([1], .set 6), ([1, 2], .set 8), ([], .set 4)]

/-- The tree of the `getdown` example: root value 1, child `a` with value 2, grandchild
`a/b` with value 3. -/
def getdownExample : Tree String Int :=
  .node 1 .self (.cons "a" (.node 2 .owner (.cons "b" (.node 3 .owner .nil) .nil)) .nil)

/-! ## Bottom-up recomputation -/

mutual
/-- `tree::refresh` (lines 307-313): `V value = !size() ? get() : zero<V>()`, the loop over
the children, `return get() = value`.  The first component is the node after the call, the
second the returned value. -/
def Tree.refresh [Zero V] [Add V] : Tree K V → Tree K V × V
  | .node v p cs =>
    let r := Forest.refreshLoop cs (if cs.size = 0 then v else 0)
    (.node r.2 p r.1, r.2)
/-- The loop of `refresh` (lines 309-311): `value += it->second.refresh()`, every entry
being refreshed in place. -/
def Forest.refreshLoop [Zero V] [Add V] : Forest K V → V → Forest K V × V
  | .nil, acc => (.nil, acc)
  | .cons k c rest, acc =>
    let rc := Tree.refresh c
    let rr := Forest.refreshLoop rest (acc + rc.2)
    (.cons k rc.1 rr.1, rr.2)
end

mutual
/-- The stored values of the leaves of a subtree, a childless node being its own leaf. -/
def Tree.leafValues : Tree K V → List V
  | .node v _ .nil => [v]
  | .node _ _ (.cons _ c rest) => Tree.leafValues c ++ Forest.leafValues rest
/-- The stored values of the leaves found in the entries of a map. -/
def Forest.leafValues : Forest K V → List V
  | .nil => []
  | .cons _ c rest => Tree.leafValues c ++ Forest.leafValues rest
end

mutual
/-- The tree the specification describes for `refresh`: the same structure and `parent`
pointers, every leaf with its stored value, every internal node with the sum of the values
of the leaves beneath it. -/
def Tree.rollup [AddCommMonoid V] : Tree K V → Tree K V
  | .node v p cs => .node (if cs.size = 0 then v else (Forest.leafValues cs).sum) p
      (Forest.rollup cs)
/-- The entries of a map, each replaced by its `rollup`. -/
def Forest.rollup [AddCommMonoid V] : Forest K V → Forest K V
  | .nil => .nil
  | .cons k c rest => .cons k (Tree.rollup c) (Forest.rollup rest)
end

/-- A tree whose leaves all hold 1 and whose internal nodes hold arbitrary values: the root
(value 40) has children `1` (value -3, with leaves `4` and `5`) and `2` (a leaf). -/
def refreshExample : Tree Nat Int :=
  .node 40 .self
    (.cons 1 (.node (-3) .owner
        (.cons 4 (.node 1 .owner .nil) (.cons 5 (.node 1 .owner .nil) .nil)))
      (.cons 2 (.node 1 .owner .nil) .nil))

/-! ## Transformation: `collapse` -/

/-- A write through the reference `t[k]` that `insert` has returned: the entry stored under
`k` becomes `g` of what it was. -/
def Tree.modifyChild (t : Tree K V) (k : K) (g : Tree K V → Tree K V) : Tree K V :=
  match t with
  | .node v p cs => .node v p (cs.modify k g)

/-- The two statements `t[k] += x; t[k].get() = v;` of lines 300-301 (and of lines 273-274
and 288-289): each `t[k]` is `insert(k)`, `+=` is `operator+=(const tree&)` on the returned
entry with the temporary `x`, and the second statement is an assignment to its value. -/
def Tree.mergeAt [Zero V] (t : Tree K V) (k : K) (x : Tree K V) (v : V) : Tree K V :=
  let t1 := (t.insert k).1.modifyChild k (fun e => e.opAddAssign (.other x))
  (t1.insert k).1.modifyChild k (fun e => e.set v)

mutual
/-- `tree::collapse` (lines 294-305): with exactly one entry (`1 == size()`), the object
returned is the one `begin()->second.collapse()` returns (line 297); otherwise the local
`tree t` is filled by the loop and `return t;` (line 304) hands it back.  The function has
two `return` statements and only the second names `t`, so the object the caller receives
is constructed from `t` by the copy constructor `tree(const tree&)` (lines 50-53), the
class declaring no move constructor: every entry of the result has `parent == this`. -/
def Tree.collapse [Zero V] : Tree K V → Tree K V
  | .node _ _ cs =>
    if cs.size = 1 then
      match cs with
      | .cons _ c _ => Tree.collapse c
      | .nil => Tree.new
    else Tree.copy (Forest.collapseLoop cs Tree.new)
/-- The loop of `collapse` (lines 299-302):
`t[it->first] += it->second.collapse(); t[it->first].get() = it->second.get();`. -/
def Forest.collapseLoop [Zero V] : Forest K V → Tree K V → Tree K V
  | .nil, t => t
  | .cons k c rest, t => Forest.collapseLoop rest (t.mergeAt k (Tree.collapse c) c.get)
end

mutual
/-- No node of the subtree, the node itself included, has exactly one child. -/
def Tree.noSingle : Tree K V → Bool
  | .node _ _ cs => decide (cs.size ≠ 1) && Forest.noSingle cs
/-- No node stored in the map or below it has exactly one child. -/
def Forest.noSingle : Forest K V → Bool
  | .nil => true
  | .cons _ c rest => Tree.noSingle c && Forest.noSingle rest
end

/-- A chain `root → a → b → c` of single children (keys 1, 2, 3) whose last node `c` is a
leaf with value 5. -/
def chainLeaf : Tree Nat Int :=
  .node 9 .self (.cons 1 (.node 8 .owner (.cons 2 (.node 7 .owner
    (.cons 3 (.node 5 .owner .nil) .nil)) .nil)) .nil)

/-- A node with value 5 and two children: `4` (value 6, with a single child `6` that has
two leaves) and `5` (a leaf with value 7). -/
def chainForkEnd : Tree Nat Int :=
  .node 5 .owner
    (.cons 4 (.node 6 .owner (.cons 6 (.node 11 .owner
        (.cons 7 (.node 12 .owner .nil) (.cons 8 (.node 13 .owner .nil) .nil))) .nil))
      (.cons 5 (.node 7 .owner .nil) .nil))

/-- A chain `root → a → b → c` of single children (keys 1, 2, 3) whose last node `c` is
`chainForkEnd`. -/
def chainFork : Tree Nat Int :=
  .node 9 .self (.cons 1 (.node 8 .owner (.cons 2 (.node 7 .owner
    (.cons 3 chainForkEnd .nil)) .nil)) .nil)

/-- The entry that lines 300-301 store in the local `t` for a child `c` of the collapsed
node when the key is new: the value of `c`, `parent` set by `insert`, and copies of the
entries of `c.collapse()`.  The returned object holds a copy of it. -/
def Tree.collapseEntry [Zero V] (c : Tree K V) : Tree K V :=
  .node c.get .owner c.collapse.children.shape

/-- The entries of a map, each replaced by its `collapseEntry`. -/
def Forest.collapseEntries [Zero V] : Forest K V → Forest K V
  | .nil => .nil
  | .cons k c rest => .cons k c.collapseEntry (Forest.collapseEntries rest)

/-! ## Transformation: `rekey` -/

/-- The `std::map<A, B>` handed to `rekey`: its entries in iteration order. -/
abbrev KeyMap (A B : Type) := List (A × B)

/-- `std::map::find` on the mapping: the value stored under `a`, `none` standing for
`end()`. -/
def KeyMap.find {A B : Type} [LinearOrder A] (a : A) : KeyMap A B → Option B
  | [] => none
  | (a2, b) :: rest =>
    if a2 < a then KeyMap.find a rest
    else if a < a2 then none
    else some b

/-- The `std::map` invariant of the mapping: keys strictly increasing along the
iteration. -/
def KeyMap.sorted {A B : Type} [LinearOrder A] (m : KeyMap A B) : Prop :=
  (m.map Prod.fst).Pairwise (· < ·)

instance {A B : Type} [LinearOrder A] (m : KeyMap A B) : Decidable (KeyMap.sorted m) :=
  inferInstanceAs (Decidable ((m.map Prod.fst).Pairwise (· < ·)))

mutual
/-- `tree::rekey(const std::map<K, U>&)` (lines 267-277), the forward form: the local
`tree<U> utree`, filled by the loop, is returned; `none` stands for a failed
`assert(map.end() != find)`.  The result type `tree<U>` has the default value type `int`,
here `W`; `conv` is the implicit conversion from `V` that the assignment of line 274
applies, the identity when `V` is `int`. -/
def Tree.rekey {U W : Type} [LinearOrder U] [Zero W] (conv : V → W) (m : KeyMap K U) :
    Tree K V → Option (Tree U W)
  | .node _ _ cs => Forest.rekeyLoop conv m cs Tree.new
/-- The loop of the forward `rekey` (lines 270-275): `map.find(it->first)`, the assertion,
`utree[find->second] += it->second.rekey(map); utree[find->second].get() =
it->second.get();`. -/
def Forest.rekeyLoop {U W : Type} [LinearOrder U] [Zero W] (conv : V → W)
    (m : KeyMap K U) : Forest K V → Tree U W → Option (Tree U W)
  | .nil, utree => some utree
  | .cons k c rest, utree =>
    match KeyMap.find k m with
    | none => none
    | some u =>
      match Tree.rekey conv m c with
      | none => none
      | some x => Forest.rekeyLoop conv m rest (utree.mergeAt u x (conv c.get))
end

mutual
/-- `tree::rekey(const std::map<U, K>&)` (lines 279-292), the reverse form: the loop runs
over the entries `(u, k)` of the mapping; an entry whose `k` is not found is skipped
(`continue`), otherwise `utree[it->first] += find->second.rekey(map);
utree[it->first].get() = find->second.get();`.  As in the forward form the result is a
`tree<U>` with value type `W`, and `conv` is the conversion that line 289 applies. -/
def Tree.rekeyRev {U W : Type} [LinearOrder U] [Zero W] (conv : V → W) (m : KeyMap U K) :
    Tree K V → Tree U W
  | .node _ _ cs =>
    m.foldl (fun utree e =>
      match Forest.findRekeyRev conv m e.2 cs with
      | none => utree
      | some r => utree.mergeAt e.1 r.1 r.2) Tree.new
/-- `this->find(k)` of line 284 together with what lines 288-289 read from the found entry:
`find->second.rekey(map)` and `find->second.get()`. -/
def Forest.findRekeyRev {U W : Type} [LinearOrder U] [Zero W] (conv : V → W)
    (m : KeyMap U K) (k : K) : Forest K V → Option (Tree U W × W)
  | .nil => none
  | .cons k2 c rest =>
    if k2 < k then Forest.findRekeyRev conv m k rest
    else if k < k2 then none
    else some (Tree.rekeyRev conv m c, conv c.get)
end

mutual
/-- A tree with every value converted by `g`, structure and `parent` pointers kept. -/
def Tree.mapValues {W : Type} (g : V → W) : Tree K V → Tree K W
  | .node v p cs => .node (g v) p (Forest.mapValues g cs)
/-- The entries of a map with every value converted by `g`. -/
def Forest.mapValues {W : Type} (g : V → W) : Forest K V → Forest K W
  | .nil => .nil
  | .cons k c rest => .cons k (Tree.mapValues g c) (Forest.mapValues g rest)
end

mutual
/-- All keys occurring in a tree, at every level. -/
def Tree.allKeys : Tree K V → List K
  | .node _ _ cs => Forest.allKeys cs
/-- All keys occurring in a map and below it. -/
def Forest.allKeys : Forest K V → List K
  | .nil => []
  | .cons k c rest => k :: (Tree.allKeys c ++ Forest.allKeys rest)
end

/-- A mapping from natural-number keys to characters; it sends the larger key to the
smaller character, so the forward `rekey` changes the order of the entries. -/
def rekeyMap : KeyMap Nat Char := [(1, 'z'), (2, 'y'), (9, 'a')]

/-- A tree with root value 7 whose keys are all mapped by `rekeyMap`. -/
def rekeySource : Tree Nat Int :=
  .node 7 .self
    (.cons 1 (.node 5 .owner (.cons 9 (.node 2 .owner .nil) .nil))
      (.cons 2 (.node 3 .owner .nil) .nil))

/-- The entry that lines 288-289 store for a found child `c` when the key is new: the value
of `c`, `parent` set by `insert`, and copies of the entries of `c.rekey(map)`. -/
def Tree.rekeyRevEntry {U W : Type} [LinearOrder U] [Zero W] (conv : V → W)
    (m : KeyMap U K) (c : Tree K V) : Tree U W :=
  .node (conv c.get) .owner (c.rekeyRev conv m).children.shape

/-- The first entry of a map whose key the forward mapping sends to `u`. -/
def Forest.findImage {U : Type} [LinearOrder U] (f : KeyMap K U) (u : U) :
    Forest K V → Option (Tree K V)
  | .nil => none
  | .cons k c rest =>
    if KeyMap.find k f = some u then some c else Forest.findImage f u rest

/-- The entry that lines 273-274 store for a child `c` when the key is new: the value of
`c`, `parent` set by `insert`, and copies of the entries of `c.rekey(map)`. -/
def Tree.rekeyEntry {U W : Type} [LinearOrder U] [Zero W] (conv : V → W)
    (f : KeyMap K U) (c : Tree K V) : Tree U W :=
  .node (conv c.get) .owner ((c.rekey conv f).getD Tree.new).children.shape

/-- The mapping sends no two keys to the same new key. -/
def KeyMap.injective {A B : Type} [LinearOrder A] (f : KeyMap A B) : Prop :=
  ∀ (a1 a2 : A) (b : B), KeyMap.find a1 f = some b → KeyMap.find a2 f = some b → a1 = a2

/-- The mapping is total over all keys occurring in the tree. -/
def Tree.mappedBy {U : Type} (f : KeyMap K U) (t : Tree K V) : Prop :=
  ∀ k ∈ t.allKeys, (KeyMap.find k f).isSome = true

/-- A tree with character keys: `y` is a leaf, `z` has the child `a`, and `q` is a key that
no entry of `rekeyMap` has as its old key. -/
def rekeyTarget : Tree Char Int :=
  .node 0 .self
    (.cons 'q' (.node 4 .owner .nil)
      (.cons 'y' (.node 3 .owner .nil)
        (.cons 'z' (.node 5 .owner (.cons 'a' (.node 2 .owner .nil) .nil)) .nil)))

/-! ## Predicate walk -/

/-- What a call `predicate(*this, it)` does, for the predicates the model covers: it
returns `true` (`descend`), returns `false` (`skip`), or erases from `*this` the entry it
was handed and returns `false` (`eraseSkip`).  Such a predicate touches no entry other
than the one it is handed. -/
inductive Verdict where
  | descend
  | skip
  | eraseSkip
deriving DecidableEq, Repr

/-- The outcome of a walk: the node after the walk, the calls of the predicate in the order
they were made (each with the path of the entry, relative to the walked node, and the
returned `bool`), and the final state of the predicate. -/
structure WalkResult (K V σ : Type) where
  tree : Tree K V
  trace : List (List K × Bool)
  state : σ

mutual
/-- `tree::walk` (lines 317-326) on a node reached along `pre` from the node the walk was
started on.  A predicate is a function of its own state, of `pre`, of `*this` as it is at
the time of the call, and of the key of `it`. -/
def Tree.walk {σ : Type} (pred : σ → List K → Tree K V → K → Verdict × σ) :
    List K → Tree K V → σ → WalkResult K V σ
  | pre, .node v p cs, s => Forest.walkLoop pred pre cs (.node v p cs) s
/-- The loop of `walk` (lines 319-324) from the entry `it` on, `self` being `*this` as it is
now.  `++it_next` precedes the call, so the remaining entries are those that followed `it`
before the call; when the predicate returns `true` the entry is walked in place. -/
def Forest.walkLoop {σ : Type} (pred : σ → List K → Tree K V → K → Verdict × σ) :
    List K → Forest K V → Tree K V → σ → WalkResult K V σ
  | _, .nil, self, s => ⟨self, [], s⟩
  | pre, .cons k c rest, self, s =>
    match pred s pre self k with
    | (.descend, s1) =>
      let r1 := Tree.walk pred (pre ++ [k]) c s1
      let r2 := Forest.walkLoop pred pre rest (self.modifyChild k (fun _ => r1.tree)) r1.state
      ⟨r2.tree, (([k], true) :: r1.trace.map (fun e => (k :: e.1, e.2))) ++ r2.trace,
        r2.state⟩
    | (.skip, s1) =>
      let r2 := Forest.walkLoop pred pre rest self s1
      ⟨r2.tree, ([k], false) :: r2.trace, r2.state⟩
    | (.eraseSkip, s1) =>
      let r2 := Forest.walkLoop pred pre rest (self.erase k) s1
      ⟨r2.tree, ([k], false) :: r2.trace, r2.state⟩
end

mutual
/-- The entries below a node, each as the path of keys leading to it from the node, in
depth-first pre-order with siblings in key order. -/
def Tree.entryPaths : Tree K V → List (List K)
  | .node _ _ cs => Forest.entryPaths cs
/-- The entries of a map and below, in depth-first pre-order. -/
def Forest.entryPaths : Forest K V → List (List K)
  | .nil => []
  | .cons k c rest =>
    ([k] :: (Tree.entryPaths c).map (fun p => k :: p)) ++ Forest.entryPaths rest
end

/-- The predicate that erases the entry it is handed and returns `false`. -/
def eraser {σ : Type} : σ → List K → Tree K V → K → Verdict × σ :=
  fun s _ _ _ => (Verdict.eraseSkip, s)

/-- The calls of a walk are those the specification describes for the entries `paths`:
an entry is visited exactly when every entry strictly above it on its path got `true`. -/
def TraceOK (tr : List (List K × Bool)) (paths : List (List K)) : Prop :=
  (tr.map Prod.fst).Sublist paths
  ∧ ∀ p ∈ paths, (p ∈ tr.map Prod.fst
      ↔ ∀ q r : List K, q ≠ [] → r ≠ [] → q ++ r = p → (q, true) ∈ tr)

/-! ## Export -/

mutual
/-- `tree::csv` (lines 219-227).  The stream is the text written so far; `showK` and
`showV` are `operator<<` of the key type and of the value type; `pre` is the parameter
`prefix`, and `depth` is passed on as `depth + 1` in `unsigned` arithmetic. -/
def Tree.csv (showK : K → String) (showV : V → String) :
    String → String → Nat → Tree K V → String
  | out, pre, depth, .node _ _ cs => Forest.csvLoop showK showV out pre depth cs
/-- The loop of `csv` (lines 221-226): one line `prefix / key , value endl`, then the entry
itself with the string `prefix / key` as its prefix. -/
def Forest.csvLoop (showK : K → String) (showV : V → String) :
    String → String → Nat → Forest K V → String
  | out, _, _, .nil => out
  | out, pre, depth, .cons k c rest =>
    let out1 := out ++ pre ++ "/" ++ showK k ++ "," ++ showV c.get ++ "\n"
    let out2 := Tree.csv showK showV out1 (pre ++ "/" ++ showK k) ((depth + 1) % 2 ^ 32) c
    Forest.csvLoop showK showV out2 pre depth rest
end

/-- `tree::as_csv` (lines 229-232): `csv` into an empty string stream, with the default
arguments. -/
def Tree.as_csv (showK : K → String) (showV : V → String) (t : Tree K V) : String :=
  t.csv showK showV "" "" 0

mutual
/-- The nodes below a node, each as the path of keys leading to it and its value, in
depth-first pre-order with siblings in key order. -/
def Tree.entryValues : Tree K V → List (List K × V)
  | .node _ _ cs => Forest.entryValues cs
/-- The nodes stored in a map and below, in depth-first pre-order. -/
def Forest.entryValues : Forest K V → List (List K × V)
  | .nil => []
  | .cons k c rest =>
    (([k], c.get) :: (Tree.entryValues c).map (fun e => (k :: e.1, e.2)))
      ++ Forest.entryValues rest
end

/-- The text `/k1/.../kn` of a path of keys. -/
def pathText (showK : K → String) : List K → String
  | [] => ""
  | k :: ks => "/" ++ showK k ++ pathText showK ks

/-- The line of the specification for a node: prefix, path, comma, value, newline. -/
def csvLine (showK : K → String) (showV : V → String) (pre : String) (e : List K × V) :
    String :=
  pre ++ pathText showK e.1 ++ "," ++ showV e.2 ++ "\n"

/-- The concatenation of a list of lines. -/
def concatLines : List String → String
  | [] => ""
  | l :: ls => l ++ concatLines ls

/-- A way to write integers: a sign and as many `i` as the absolute value. -/
def tally (v : Int) : String :=
  (if v < 0 then "-" else "") ++ String.mk (List.replicate v.natAbs 'i')

/-! ## Upward propagation -/

/-- An assignment `set(v)` through a reference to the node at path `p` of a tree. -/
def Tree.setAt : List K → V → Tree K V → Tree K V
  | [], v, t => t.set v
  | k :: ks, v, t => t.modifyChild k (Tree.setAt ks v)

/-- `tree::setup` (lines 113-119) run for at most `fuel` calls from the node at path `p` of
`r`: `if (!is_root()) { up().set(t).setup(t); }`.  The result is the tree after the call. -/
def Tree.setupFrom : Nat → Tree K V → List K → V → Option (Tree K V)
  | 0, _, _, _ => none
  | fuel + 1, r, p, v =>
    match r.nodeAt p with
    | none => none
    | some n =>
      if n.is_root = true then some r
      else
        match r.up p with
        | some q => Tree.setupFrom fuel (r.setAt q v) q v
        | none => none

/-- `tree::setup` (lines 113-119) called on the node at path `p` of `r`; one call per node
on the way up suffices. -/
def Tree.setup (r : Tree K V) (p : List K) (v : V) : Option (Tree K V) :=
  Tree.setupFrom (p.length + 1) r p v

/-- The tree `r2` has a node exactly where `r` has one, with the same keys below it and the
same `parent`; the nodes at the paths in `S` hold `v`, every other node holds what it held
in `r`. -/
def Tree.Repainted (v : V) (S : List K → Prop) (r r2 : Tree K V) : Prop :=
  ∀ q : List K,
    (r.nodeAt q = none → r2.nodeAt q = none)
    ∧ ∀ m : Tree K V, r.nodeAt q = some m →
        ∃ m2 : Tree K V, r2.nodeAt q = some m2
          ∧ m2.children.keys = m.children.keys
          ∧ m2.parent = m.parent
          ∧ (S q → m2.get = v)
          ∧ (¬ S q → m2.get = m.get)

/-! ## Facts about the `std::map` model -/

theorem Forest.find_mapInsert_self (k : K) (c : Tree K V) :
    ∀ f : Forest K V, (f.mapInsert k c).find k = some ((f.find k).getD c)
  | .nil => by simp [Forest.mapInsert, Forest.find]
  | .cons k2 c2 rest => by
    by_cases h1 : k2 < k
    · simp [Forest.mapInsert, Forest.find, h1, Forest.find_mapInsert_self k c rest]
    · by_cases h2 : k < k2
      · simp [Forest.mapInsert, Forest.find, h1, h2]
      · simp [Forest.mapInsert, Forest.find, h1, h2]

theorem Forest.find_mapInsert_ne {k x : K} (h : k ≠ x) (c : Tree K V) :
    ∀ f : Forest K V, (f.mapInsert k c).find x = f.find x
  | .nil => by
    rcases lt_or_gt_of_ne h with h1 | h1
    · simp [Forest.mapInsert, Forest.find, h1]
    · simp [Forest.mapInsert, Forest.find, h1, not_lt_of_gt h1]
  | .cons k2 c2 rest => by
    by_cases h1 : k2 < k
    · simp [Forest.mapInsert, Forest.find, h1, Forest.find_mapInsert_ne h c rest]
    · by_cases h2 : k < k2
      · simp only [Forest.mapInsert, h1, h2, if_true, if_false]
        rcases lt_or_gt_of_ne h with h3 | h3
        · simp [Forest.find, h3]
        · have h4 : x < k2 := lt_trans h3 h2
          simp [Forest.find, not_lt_of_gt h3, h3, not_lt_of_gt h4, h4]
      · simp [Forest.mapInsert, h1, h2]

theorem Forest.mapInsert_of_find {k : K} (c : Tree K V) :
    ∀ f : Forest K V, (f.find k).isSome = true → f.mapInsert k c = f
  | .nil => by simp [Forest.find]
  | .cons k2 c2 rest => by
    intro h
    by_cases h1 : k2 < k
    · simp only [Forest.find, h1, if_true] at h
      simp [Forest.mapInsert, h1, Forest.mapInsert_of_find c rest h]
    · by_cases h2 : k < k2
      · simp [Forest.find, h1, h2] at h
      · simp [Forest.mapInsert, h1, h2]

theorem Forest.size_mapInsert {k : K} (c : Tree K V) :
    ∀ f : Forest K V, f.find k = none → (f.mapInsert k c).size = f.size + 1
  | .nil => by simp [Forest.mapInsert, Forest.size]
  | .cons k2 c2 rest => by
    intro h
    by_cases h1 : k2 < k
    · simp only [Forest.find, h1, if_true] at h
      simp [Forest.mapInsert, h1, Forest.size, Forest.size_mapInsert c rest h]
    · by_cases h2 : k < k2
      · simp [Forest.mapInsert, h1, h2, Forest.size]
      · simp [Forest.find, h1, h2] at h

theorem Forest.find_modify_self (k : K) (g : Tree K V → Tree K V) :
    ∀ f : Forest K V, (f.modify k g).find k = (f.find k).map g
  | .nil => by simp [Forest.modify, Forest.find]
  | .cons k2 c2 rest => by
    by_cases h1 : k2 < k
    · simp [Forest.modify, Forest.find, h1, Forest.find_modify_self k g rest]
    · by_cases h2 : k < k2
      · simp [Forest.modify, Forest.find, h1, h2]
      · simp [Forest.modify, Forest.find, h1, h2]

theorem Forest.find_modify_ne {k x : K} (h : k ≠ x) (g : Tree K V → Tree K V) :
    ∀ f : Forest K V, (f.modify k g).find x = f.find x
  | .nil => by simp [Forest.modify, Forest.find]
  | .cons k2 c2 rest => by
    by_cases h1 : k2 < k
    · simp [Forest.modify, Forest.find, h1, Forest.find_modify_ne h g rest]
    · by_cases h2 : k < k2
      · simp [Forest.modify, h1, h2]
      · have h3 : k = k2 := le_antisymm (not_lt.mp h1) (not_lt.mp h2)
        subst h3
        simp only [Forest.modify, h1, if_false, Forest.find]
        rcases lt_or_gt_of_ne h with h4 | h4
        · simp [h4]
        · simp [h4, not_lt_of_gt h4]

theorem Forest.size_modify (k : K) (g : Tree K V → Tree K V) :
    ∀ f : Forest K V, (f.modify k g).size = f.size
  | .nil => by simp [Forest.modify]
  | .cons k2 c2 rest => by
    by_cases h1 : k2 < k
    · simp [Forest.modify, Forest.size, h1, Forest.size_modify k g rest]
    · by_cases h2 : k < k2
      · simp [Forest.modify, Forest.size, h1, h2]
      · simp [Forest.modify, Forest.size, h1, h2]

theorem Forest.modify_modify (k : K) (g g2 : Tree K V → Tree K V) :
    ∀ f : Forest K V, (f.modify k g).modify k g2 = f.modify k (g2 ∘ g)
  | .nil => by simp [Forest.modify]
  | .cons k2 c2 rest => by
    by_cases h1 : k2 < k
    · simp [Forest.modify, h1, Forest.modify_modify k g g2 rest]
    · by_cases h2 : k < k2
      · simp [Forest.modify, h1, h2]
      · simp [Forest.modify, h1, h2]

theorem Forest.headAbove_trans {x k : K} (hxk : x < k) :
    ∀ f : Forest K V, f.headAbove k = true → f.headAbove x = true
  | .nil => by simp [Forest.headAbove]
  | .cons k2 c2 rest => by
    simp only [Forest.headAbove, decide_eq_true_eq]
    exact fun h => lt_trans hxk h

theorem Forest.find_none_of_headAbove {x k : K} (hx : x ≤ k) :
    ∀ f : Forest K V, f.headAbove k = true → f.find x = none
  | .nil => by simp [Forest.find]
  | .cons k2 c2 rest => by
    intro h
    have h1 : k < k2 := by simpa [Forest.headAbove] using h
    have h2 : x < k2 := lt_of_le_of_lt hx h1
    simp [Forest.find, h2, not_lt_of_gt h2]

theorem Forest.find_mapErase_self (k : K) :
    ∀ f : Forest K V, f.sorted = true → (f.mapErase k).find k = none
  | .nil => by simp [Forest.mapErase, Forest.find]
  | .cons k2 c2 rest => by
    intro h
    simp only [Forest.sorted, Bool.and_eq_true] at h
    by_cases h1 : k2 < k
    · simp [Forest.mapErase, Forest.find, h1, Forest.find_mapErase_self k rest h.2]
    · by_cases h2 : k < k2
      · simp [Forest.mapErase, Forest.find, h1, h2]
      · simp only [Forest.mapErase, h1, h2, if_false]
        exact Forest.find_none_of_headAbove (not_lt.mp h1) rest h.1

theorem Forest.find_mapErase_ne {k x : K} (hne : x ≠ k) :
    ∀ f : Forest K V, f.sorted = true → (f.mapErase k).find x = f.find x
  | .nil => by simp [Forest.mapErase]
  | .cons k2 c2 rest => by
    intro h
    simp only [Forest.sorted, Bool.and_eq_true] at h
    by_cases h1 : k2 < k
    · simp [Forest.mapErase, Forest.find, h1, Forest.find_mapErase_ne hne rest h.2]
    · by_cases h2 : k < k2
      · simp [Forest.mapErase, h1, h2]
      · have h3 : k = k2 := le_antisymm (not_lt.mp h1) (not_lt.mp h2)
        subst h3
        simp only [Forest.mapErase, h1, if_false, Forest.find]
        rcases lt_or_gt_of_ne hne with h4 | h4
        · simp only [not_lt_of_gt h4, h4, if_true, if_false]
          exact Forest.find_none_of_headAbove (le_of_lt h4) rest h.1
        · simp [h4]

theorem Tree.insert_fst [Zero V] (v : V) (p : Link) (cs : Forest K V) (k : K) :
    ((Tree.node v p cs).insert k).1 =
      .node v p ((cs.mapInsert k Tree.new).modify k (Tree.setParent .owner)) := by
  have h1 : ((cs.mapInsert k Tree.new).find k).isSome = true := by
    simp [Forest.find_mapInsert_self]
  have h2 : (((cs.mapInsert k Tree.new).modify k
      (fun c => (c.opAssign Arg.this).setParent Link.owner)).find k).isSome = true := by
    simp [Forest.find_modify_self, Forest.find_mapInsert_self]
  simp only [Tree.insert, Forest.subscript]
  rw [Forest.mapInsert_of_find _ _ h1, Forest.mapInsert_of_find _ _ h2]
  rfl

/-! ## Insertion, removal, lookup -/

/-- C1 (insert idempotence).  A second `insert(k)` leaves the node exactly as the first
call left it (its value, its `parent`, every child with its whole subtree) and returns the
same reference, which denotes the same content; and the child found under `k` after
`insert(k)` is the child that was there before with its value and children untouched (only
its `parent` is reasserted), or a fresh zero-valued childless node when there was none. -/
theorem insert_idempotent [Zero V] (t : Tree K V) (k : K) :
    (t.insert k).1.insert k = t.insert k
    ∧ (∀ s : Tree K V,
        Ref.deref ((t.insert k).1.insert k).1 s ((t.insert k).1.insert k).2
          = Ref.deref (t.insert k).1 s (t.insert k).2)
    ∧ (∀ s : Tree K V,
        Ref.deref (t.insert k).1 s (t.insert k).2
          = some (match t.children.find k with
                  | some c => Tree.node c.get Link.owner c.children
                  | none => Tree.node 0 Link.owner Forest.nil)) := by
  have hidem : (t.insert k).1.insert k = t.insert k := by
    cases t with
    | node v p cs =>
      have href : ∀ u : Tree K V, (u.insert k).2 = Ref.child k := by
        intro u
        cases u
        rfl
      refine Prod.ext ?_ ?_
      · rw [Tree.insert_fst, Tree.insert_fst]
        have h1 : (((cs.mapInsert k Tree.new).modify k (Tree.setParent Link.owner)).find k).isSome
            = true := by
          simp [Forest.find_modify_self, Forest.find_mapInsert_self]
        rw [Forest.mapInsert_of_find _ _ h1, Forest.modify_modify]
        have h2 : (Tree.setParent Link.owner ∘ Tree.setParent Link.owner
            : Tree K V → Tree K V) = Tree.setParent Link.owner := by
          funext c
          cases c
          rfl
        rw [h2]
      · rw [href, href]
  refine ⟨hidem, ?_, ?_⟩
  · intro s
    rw [hidem]
  · intro s
    cases t with
    | node v p cs =>
      have href : ((Tree.node v p cs).insert k).2 = Ref.child k := rfl
      rw [href, Tree.insert_fst]
      simp only [Ref.deref, Tree.children, Forest.find_modify_self, Forest.find_mapInsert_self]
      cases cs.find k with
      | none => rfl
      | some c =>
        cases c
        rfl

/-- C2 (insert of an absent key).  When `k` is absent, `insert(k)` stores under `k` a node
with the zero value and no children (its `parent` being the node inserted into), so that
`has(k)` holds and the map has one entry more; every other key finds what it found before,
and the node keeps its own value and `parent`. -/
theorem insert_absent [Zero V] (t : Tree K V) (k : K) (h : t.has k = false) :
    (t.insert k).1.children.find k = some (Tree.node 0 Link.owner Forest.nil)
    ∧ (t.insert k).1.has k = true
    ∧ (t.insert k).1.children.size = t.children.size + 1
    ∧ (∀ x : K, x ≠ k → (t.insert k).1.children.find x = t.children.find x)
    ∧ (t.insert k).1.get = t.get
    ∧ (t.insert k).1.parent = t.parent := by
  cases t with
  | node v p cs =>
    have hnone : cs.find k = none := by
      simpa [Tree.has, Tree.empty, Tree.children] using h
    have hfind : ((Tree.node v p cs).insert k).1.children.find k
        = some (Tree.node 0 Link.owner Forest.nil) := by
      rw [Tree.insert_fst]
      simp [Tree.children, Forest.find_modify_self, Forest.find_mapInsert_self, hnone,
        Tree.new, Tree.setParent]
    refine ⟨hfind, ?_, ?_, ?_, ?_, ?_⟩
    · simp [Tree.has, Tree.empty, hfind]
    · rw [Tree.insert_fst]
      simp [Tree.children, Forest.size_modify, Forest.size_mapInsert _ _ hnone]
    · intro x hx
      rw [Tree.insert_fst]
      simp only [Tree.children]
      rw [Forest.find_modify_ne (Ne.symm hx), Forest.find_mapInsert_ne (Ne.symm hx)]
    · rw [Tree.insert_fst]
      rfl
    · rw [Tree.insert_fst]
      rfl

/-- Witness of C2: key `2` is absent from `sample`. -/
theorem insert_absent_witness :
    (sample.insert 2).1.children.find 2 = some (Tree.node 0 Link.owner Forest.nil)
    ∧ (sample.insert 2).1.children.size = 3 :=
  ⟨(insert_absent sample 2 (by decide)).1, (insert_absent sample 2 (by decide)).2.2.1⟩

/-- C3 (erase).  On a node whose map satisfies the `std::map` invariant, `erase(k)` leaves
no entry under `k`, every other key finds what it found before, the value and `parent` of
the node are kept, and when `k` was absent the node is identical to what it was. -/
theorem erase_removes_only_key (t : Tree K V) (k : K) (hs : t.children.sorted = true) :
    (t.erase k).has k = false
    ∧ (∀ x : K, x ≠ k → (t.erase k).children.find x = t.children.find x)
    ∧ (t.erase k).get = t.get
    ∧ (t.erase k).parent = t.parent
    ∧ (t.has k = false → t.erase k = t) := by
  cases t with
  | node v p cs =>
    simp only [Tree.children] at hs
    cases hf : cs.find k with
    | none =>
      simp [Tree.erase, hf, Tree.has, Tree.empty, Tree.children, Tree.get, Tree.parent]
    | some c =>
      simp [Tree.erase, hf, Tree.has, Tree.empty, Tree.children, Tree.get, Tree.parent,
        Forest.find_mapErase_self k cs hs]
      intro x hx
      exact Forest.find_mapErase_ne hx cs hs

/-- Witness of C3: erasing key `1` of `sample` leaves exactly the entry under `3`. -/
theorem erase_removes_only_key_witness :
    (sample.erase 1).has 1 = false
    ∧ (sample.erase 1).children.find 3 = sample.children.find 3
    ∧ sample.erase 2 = sample :=
  ⟨(erase_removes_only_key sample 1 (by decide)).1,
   (erase_removes_only_key sample 1 (by decide)).2.1 3 (by decide),
   (erase_removes_only_key sample 2 (by decide)).2.2.2.2 (by decide)⟩

/-- C4 (read-only lookup).  `at(k)` leaves the node as it is; it returns the entry stored
under `k` when `has(k)` and the static of `invalid<tree>()` otherwise, so the result
`is_valid()` exactly when `has(k)`; the node it denotes is the stored child when present
and otherwise a node with the zero value and no children. -/
theorem at_lookup [Zero V] (t : Tree K V) (k : K) (s : Tree K V) :
    (t.at_ k s).self = t
    ∧ (t.at_ k s).ref = (if t.has k = true then Ref.child k else Ref.invalid)
    ∧ (t.at_ k s).ref.is_valid = t.has k
    ∧ Ref.deref (t.at_ k s).self (t.at_ k s).sentinel (t.at_ k s).ref
        = some ((t.children.find k).getD (Tree.node 0 s.parent Forest.nil)) := by
  cases hf : t.children.find k with
  | none =>
    have hinv : Tree.invalid s = Tree.node 0 s.parent Forest.nil := rfl
    simp [Tree.at_, hf, Tree.has, Tree.empty, Ref.is_valid, Ref.deref, hinv]
  | some c =>
    simp [Tree.at_, hf, Tree.has, Tree.empty, Ref.is_valid, Ref.deref]

/-! ## The `std::map` invariant is kept by every operation -/

theorem Forest.headAbove_mapInsert {x k : K} (hxk : x < k) (c : Tree K V) :
    ∀ f : Forest K V, f.headAbove x = true → (f.mapInsert k c).headAbove x = true
  | .nil => by simp [Forest.mapInsert, Forest.headAbove, hxk]
  | .cons k2 c2 rest => by
    intro h
    by_cases h1 : k2 < k
    · simpa [Forest.mapInsert, h1, Forest.headAbove] using h
    · by_cases h2 : k < k2
      · simp [Forest.mapInsert, h1, h2, Forest.headAbove, hxk]
      · simpa [Forest.mapInsert, h1, h2] using h

theorem Forest.wf_mapInsert (k : K) (c : Tree K V) (hc : c.wf = true) :
    ∀ f : Forest K V, f.wf = true → (f.mapInsert k c).wf = true
  | .nil => by simp [Forest.mapInsert, Forest.wf, Forest.headAbove, hc]
  | .cons k2 c2 rest => by
    intro h
    have h3 := h
    simp only [Forest.wf, Bool.and_eq_true] at h3
    by_cases h1 : k2 < k
    · simp [Forest.mapInsert, h1, Forest.wf, h3.2.1, Forest.wf_mapInsert k c hc rest h3.2.2,
        Forest.headAbove_mapInsert h1 c rest h3.1]
    · by_cases h2 : k < k2
      · have hk : (Forest.cons k2 c2 rest).headAbove k = true := by
          simp [Forest.headAbove, h2]
        simp only [Forest.mapInsert, h1, h2, if_false, if_true]
        show ((Forest.cons k2 c2 rest).headAbove k
          && (c.wf && (Forest.cons k2 c2 rest).wf)) = true
        rw [hk, hc, h]
        rfl
      · simp [Forest.mapInsert, h1, h2, h]

theorem Forest.headAbove_modify (x k : K) (g : Tree K V → Tree K V) :
    ∀ f : Forest K V, (f.modify k g).headAbove x = f.headAbove x
  | .nil => by simp [Forest.modify]
  | .cons k2 c2 rest => by
    by_cases h1 : k2 < k
    · simp [Forest.modify, h1, Forest.headAbove]
    · by_cases h2 : k < k2
      · simp [Forest.modify, h1, h2]
      · simp [Forest.modify, h1, h2, Forest.headAbove]

theorem Forest.wf_modify (k : K) (g : Tree K V → Tree K V)
    (hg : ∀ c : Tree K V, c.wf = true → (g c).wf = true) :
    ∀ f : Forest K V, f.wf = true → (f.modify k g).wf = true
  | .nil => by simp [Forest.modify]
  | .cons k2 c2 rest => by
    intro h
    have h3 := h
    simp only [Forest.wf, Bool.and_eq_true] at h3
    by_cases h1 : k2 < k
    · simp [Forest.modify, h1, Forest.wf, h3.1, h3.2.1, Forest.headAbove_modify,
        Forest.wf_modify k g hg rest h3.2.2]
    · by_cases h2 : k < k2
      · simp [Forest.modify, h1, h2, h]
      · simp [Forest.modify, h1, h2, Forest.wf, h3.1, hg c2 h3.2.1, h3.2.2]

theorem Forest.headAbove_of_wf_rest {x k : K} {c : Tree K V} {rest : Forest K V}
    (hx : x < k) (h : (Forest.cons k c rest).wf = true) : rest.headAbove x = true := by
  simp only [Forest.wf, Bool.and_eq_true] at h
  exact Forest.headAbove_trans hx rest h.1

theorem Forest.headAbove_mapErase {x : K} (k : K) :
    ∀ f : Forest K V, f.wf = true → f.headAbove x = true →
      (f.mapErase k).headAbove x = true
  | .nil => by simp [Forest.mapErase]
  | .cons k2 c2 rest => by
    intro h hx
    have hx2 : x < k2 := by simpa [Forest.headAbove] using hx
    by_cases h1 : k2 < k
    · simpa [Forest.mapErase, h1, Forest.headAbove] using hx2
    · by_cases h2 : k < k2
      · simpa [Forest.mapErase, h1, h2] using hx
      · simp only [Forest.mapErase, h1, h2, if_false]
        exact Forest.headAbove_of_wf_rest hx2 h

theorem Forest.wf_mapErase (k : K) :
    ∀ f : Forest K V, f.wf = true → (f.mapErase k).wf = true
  | .nil => by simp [Forest.mapErase]
  | .cons k2 c2 rest => by
    intro h
    have h3 := h
    simp only [Forest.wf, Bool.and_eq_true] at h3
    by_cases h1 : k2 < k
    · simp [Forest.mapErase, h1, Forest.wf, h3.2.1, Forest.wf_mapErase k rest h3.2.2,
        Forest.headAbove_mapErase k rest h3.2.2 h3.1]
    · by_cases h2 : k < k2
      · simp [Forest.mapErase, h1, h2, h]
      · simp [Forest.mapErase, h1, h2, h3.2.2]

theorem Tree.wf_insert [Zero V] (t : Tree K V) (k : K) (h : t.wf = true) :
    (t.insert k).1.wf = true := by
  cases t with
  | node v p cs =>
    rw [Tree.insert_fst]
    simp only [Tree.wf] at h ⊢
    apply Forest.wf_modify
    · intro c hc
      cases c
      simpa [Tree.setParent, Tree.wf] using hc
    · exact Forest.wf_mapInsert k Tree.new rfl cs h

theorem Tree.wf_erase (t : Tree K V) (k : K) (h : t.wf = true) : (t.erase k).wf = true := by
  cases t with
  | node v p cs =>
    simp only [Tree.wf] at h
    cases hf : cs.find k with
    | none => simp [Tree.erase, hf, Tree.wf, h]
    | some c => simp [Tree.erase, hf, Tree.wf, Forest.wf_mapErase k cs h]

theorem Tree.wf_applyAt [Zero V] (act : Action K V) :
    ∀ (ks : List K) (t : Tree K V), t.wf = true → (t.applyAt ks act).wf = true
  | [], t => by
    intro h
    cases act with
    | touch => exact h
    | set v =>
      cases t
      simpa [Tree.applyAt, Tree.set, Tree.wf] using h
    | erase k => exact Tree.wf_erase t k h
  | k :: ks, t => by
    intro h
    have hi := Tree.wf_insert t k h
    simp only [Tree.applyAt]
    cases hins : (t.insert k).1 with
    | node v p cs =>
      rw [hins] at hi
      simp only [Tree.wf] at hi ⊢
      exact Forest.wf_modify _ _ (fun c hc => Tree.wf_applyAt act ks c hc) cs hi

theorem Tree.wf_foldl [Zero V] :
    ∀ (prog : List (List K × Action K V)) (t : Tree K V), t.wf = true →
      (prog.foldl (fun t c => t.applyAt c.1 c.2) t).wf = true
  | [], _ => fun h => h
  | c :: prog, t => fun h => Tree.wf_foldl prog _ (Tree.wf_applyAt c.2 c.1 t h)

/-- Every tree built by `insert`, `set` and `erase` satisfies the `std::map` invariant. -/
theorem Tree.wf_build [Zero V] (prog : List (List K × Action K V)) :
    (Tree.build prog : Tree K V).wf = true :=
  Tree.wf_foldl prog Tree.new rfl

mutual
theorem Tree.wf_copy : ∀ t : Tree K V, t.wf = true → t.copy.wf = true
  | .node v p cs => by
    intro h
    simp only [Tree.wf] at h
    simp only [Tree.copy, Tree.wf]
    exact Forest.wf_mergeInto cs .nil h rfl
theorem Forest.wf_mergeInto : ∀ src dst : Forest K V, src.wf = true → dst.wf = true →
    (src.mergeInto dst).wf = true
  | .nil, dst => by
    intro _ h
    exact h
  | .cons k c rest, dst => by
    intro h hd
    simp only [Forest.wf, Bool.and_eq_true] at h
    simp only [Forest.mergeInto]
    exact Forest.wf_mergeInto rest _ h.2.2 (Forest.wf_mapInsert k _ (Tree.wf_copy c h.2.1) dst hd)
end

/-- Merge and clone keep the `std::map` invariant. -/
theorem Tree.wf_opAddAssign (a b : Tree K V) (ha : a.wf = true) (hb : b.wf = true) :
    (a.opAddAssign (.other b)).wf = true := by
  cases a
  cases b
  simp only [Tree.wf] at ha hb
  simp only [Tree.opAddAssign, Tree.wf, Tree.children]
  exact Forest.wf_mergeInto _ _ hb ha

/-! ## Merge and clone -/

/-- The copy constructor is `operator=` run on a freshly constructed object. -/
theorem Tree.copy_eq_opAssign [Zero V] (t : Tree K V) :
    t.copy = (Tree.new : Tree K V).opAssign (.other t) := by
  cases t
  rfl

theorem Forest.find_mergeInto_absent {x : K} :
    ∀ src dst : Forest K V, src.sorted = true → src.find x = none →
      (src.mergeInto dst).find x = dst.find x
  | .nil, dst => by simp [Forest.mergeInto]
  | .cons k c rest, dst => by
    intro hs hsrc
    simp only [Forest.sorted, Bool.and_eq_true] at hs
    simp only [Forest.mergeInto]
    by_cases h1 : k < x
    · simp only [Forest.find, h1, if_true] at hsrc
      rw [Forest.find_mergeInto_absent rest _ hs.2 hsrc, Forest.find_mapInsert_ne (ne_of_lt h1)]
    · by_cases h2 : x < k
      · have h3 : rest.find x = none := Forest.find_none_of_headAbove (le_of_lt h2) rest hs.1
        rw [Forest.find_mergeInto_absent rest _ hs.2 h3,
          Forest.find_mapInsert_ne (ne_of_gt h2)]
      · simp [Forest.find, h1, h2] at hsrc

theorem Forest.append_nil : ∀ f : Forest K V, f.append .nil = f
  | .nil => rfl
  | .cons k c rest => by simp [Forest.append, Forest.append_nil rest]

theorem Forest.append_assoc : ∀ f g h : Forest K V,
    (f.append g).append h = f.append (g.append h)
  | .nil, g, h => rfl
  | .cons k c rest, g, h => by simp [Forest.append, Forest.append_assoc rest g h]

theorem Forest.keys_append : ∀ f g : Forest K V, (f.append g).keys = f.keys ++ g.keys
  | .nil, g => rfl
  | .cons k c rest, g => by simp [Forest.append, Forest.keys, Forest.keys_append rest g]

theorem Forest.mapInsert_above (k : K) (c : Tree K V) :
    ∀ f : Forest K V, (∀ x ∈ f.keys, x < k) → f.mapInsert k c = f.append (.cons k c .nil)
  | .nil => by simp [Forest.mapInsert, Forest.append]
  | .cons k2 c2 rest => by
    intro h
    have h1 : k2 < k := h k2 (by simp [Forest.keys])
    have h2 : ∀ x ∈ rest.keys, x < k := fun x hx => h x (by simp [Forest.keys, hx])
    simp [Forest.mapInsert, h1, Forest.append, Forest.mapInsert_above k c rest h2]

mutual
theorem Tree.copy_eq_shape : ∀ t : Tree K V, t.wf = true → t.copy = t.shape
  | .node v p cs => by
    intro h
    simp only [Tree.wf] at h
    have h2 := Forest.mergeInto_eq_append cs .nil h (by simp [Forest.keys])
    simp only [Tree.copy, Tree.shape, h2, Forest.append]
theorem Forest.mergeInto_eq_append : ∀ src dst : Forest K V, src.wf = true →
    (∀ x ∈ dst.keys, src.headAbove x = true) → src.mergeInto dst = dst.append src.shape
  | .nil, dst => by simp [Forest.mergeInto, Forest.shape, Forest.append_nil]
  | .cons k c rest, dst => by
    intro h hb
    simp only [Forest.wf, Bool.and_eq_true] at h
    have hb2 : ∀ x ∈ dst.keys, x < k := fun x hx => by
      simpa [Forest.headAbove] using hb x hx
    simp only [Forest.mergeInto]
    rw [Tree.copy_eq_shape c h.2.1, Forest.mapInsert_above k _ dst hb2]
    rw [Forest.mergeInto_eq_append rest _ h.2.2]
    · simp [Forest.append_assoc, Forest.append, Forest.shape]
    · intro x hx
      rw [Forest.keys_append] at hx
      simp only [Forest.keys, List.mem_append, List.mem_singleton] at hx
      rcases hx with hx | hx
      · exact Forest.headAbove_trans (hb2 x hx) rest h.1
      · rw [hx]
        exact h.1
end

mutual
theorem Tree.shape_idem : ∀ t : Tree K V, t.shape.shape = t.shape
  | .node v p cs => by simp [Tree.shape, Forest.shape_idemAll cs]
theorem Forest.shape_idemAll : ∀ f : Forest K V, f.shape.shape = f.shape
  | .nil => rfl
  | .cons k c rest => by simp [Forest.shape, Tree.shape_idem c, Forest.shape_idemAll rest]
end

theorem Forest.keys_shape : ∀ f : Forest K V, f.shape.keys = f.keys
  | .nil => rfl
  | .cons k c rest => by simp [Forest.shape, Forest.keys, Forest.keys_shape rest]

theorem Forest.find_shape (x : K) :
    ∀ f : Forest K V, f.shape.find x = (f.find x).map Tree.shape
  | .nil => rfl
  | .cons k c rest => by
    by_cases h1 : k < x
    · simp [Forest.shape, Forest.find, h1, Forest.find_shape x rest]
    · by_cases h2 : x < k
      · simp [Forest.shape, Forest.find, h1, h2]
      · simp [Forest.shape, Forest.find, h1, h2]

theorem Forest.sorted_of_wf : ∀ f : Forest K V, f.wf = true → f.sorted = true
  | .nil => by simp [Forest.sorted]
  | .cons k c rest => by
    intro h
    simp only [Forest.wf, Bool.and_eq_true] at h
    simp [Forest.sorted, h.1, Forest.sorted_of_wf rest h.2.2]

/-- C6 (merge preserves untouched keys).  When `a` has a child under `x` and `b`, whose
map satisfies the `std::map` invariant, has no key `x`, then after `a += b` the node `a`
still has a child under `x`, and it is the very node it was: same value, same subtree. -/
theorem merge_preserves_untouched (a b : Tree K V) (x : K) (ha : a.has x = true)
    (hb : b.has x = false) (hs : b.children.sorted = true) :
    (a.opAddAssign (.other b)).has x = true
    ∧ (a.opAddAssign (.other b)).children.find x = a.children.find x := by
  have hnone : b.children.find x = none := by
    simpa [Tree.has, Tree.empty] using hb
  have hfind : (a.opAddAssign (.other b)).children.find x = a.children.find x :=
    Forest.find_mergeInto_absent _ _ hs hnone
  refine ⟨?_, hfind⟩
  simp only [Tree.has, Tree.empty, hfind]
  simpa [Tree.has, Tree.empty] using ha

/-- Witness of C6: `sample` has a child under `3`, `mergeB` has no key `3`. -/
theorem merge_preserves_untouched_witness :
    (sample.opAddAssign (.other mergeB)).children.find 3 = sample.children.find 3 :=
  (merge_preserves_untouched sample mergeB 3 (by decide) (by decide) (by decide)).2

/-- C8, evaluated on the code.  `copySource` is built by `insert`, so each of its nodes
points to its owner.  After `a += copySource` and after `a = copySource`, for a freshly
constructed `a`, the child stored under `1` and the grandchild under `1, 2` are there with
`parent == this`: `is_root()` is true for both, and `up()` and `root()` return the node
itself instead of the node that stores it. -/
theorem copied_children_point_to_themselves :
    (copySource.nodeAt [1]).map Tree.is_root = some false
    ∧ (((Tree.new : Tree Nat Int).opAddAssign (.other copySource)).nodeAt [1]).map Tree.is_root
        = some true
    ∧ ((Tree.new : Tree Nat Int).opAddAssign (.other copySource)).up [1] = some [1]
    ∧ (((Tree.new : Tree Nat Int).opAddAssign (.other copySource)).nodeAt [1, 2]).map
        Tree.is_root = some true
    ∧ ((Tree.new : Tree Nat Int).opAddAssign (.other copySource)).root [1, 2] = some [1, 2]
    ∧ (((Tree.new : Tree Nat Int).opAssign (.other copySource)).nodeAt [1]).map Tree.is_root
        = some true
    ∧ ((Tree.new : Tree Nat Int).opAssign (.other copySource)).up [1] = some [1] := by
  decide

/-! ## Subtree sums -/

theorem Forest.getdownLoop_eq [AddCommMonoid V] : ∀ (cs : Forest K V) (acc : V),
    cs.getdownLoop acc = acc + (cs.toList.map (fun e => e.2.getdown)).sum
  | .nil, acc => by simp [Forest.getdownLoop, Forest.toList]
  | .cons k c rest, acc => by
    simp [Forest.getdownLoop, Forest.toList, Forest.getdownLoop_eq rest, add_assoc]

mutual
theorem Tree.getdown_eq_values [AddCommMonoid V] : ∀ t : Tree K V, t.getdown = t.values.sum
  | .node v p cs => by
    simp [Tree.getdown, Tree.values, Forest.getdownLoop_values cs v]
theorem Forest.getdownLoop_values [AddCommMonoid V] : ∀ (cs : Forest K V) (acc : V),
    cs.getdownLoop acc = acc + cs.values.sum
  | .nil, acc => by simp [Forest.getdownLoop, Forest.values]
  | .cons k c rest, acc => by
    simp [Forest.getdownLoop, Forest.values, Forest.getdownLoop_values rest,
      Tree.getdown_eq_values c, add_assoc]
end

/-- C10 (`getdown`).  `getdown()` of a node is its own value plus the sum of `getdown()`
over its children, which is the sum of the values of all nodes of the subtree rooted there.
This holds for every value type whose `+=` is a commutative monoid with `zero<V>()`, the
integers among them; for the integer-valued root with value 1, child `a` with value 2 and
grandchild `a/b` with value 3 it is 6.  The method is `const` and returns nothing but this
value. -/
theorem getdown_is_subtree_sum [AddCommMonoid V] (t : Tree K V) :
    t.getdown = t.get + (t.children.toList.map (fun e => e.2.getdown)).sum
    ∧ t.getdown = t.values.sum
    ∧ getdownExample.getdown = 6
    ∧ getdownExample.values = [1, 2, 3] := by
  refine ⟨?_, Tree.getdown_eq_values t, by decide, by decide⟩
  cases t with
  | node v p cs => simp [Tree.getdown, Tree.get, Tree.children, Forest.getdownLoop_eq]

/-! ## The parent invariant of trees built by `insert`, `set` and `erase` -/

theorem Forest.modify_mapInsert (k : K) (g : Tree K V → Tree K V) (c : Tree K V) :
    ∀ f : Forest K V, (f.mapInsert k c).modify k g = (f.modify k g).mapInsert k (g c)
  | .nil => by simp [Forest.mapInsert, Forest.modify]
  | .cons k2 c2 rest => by
    by_cases h1 : k2 < k
    · simp [Forest.mapInsert, Forest.modify, h1, Forest.modify_mapInsert k g c rest]
    · by_cases h2 : k < k2
      · simp [Forest.mapInsert, Forest.modify, h1, h2]
      · simp [Forest.mapInsert, Forest.modify, h1, h2]

theorem Forest.linked_mapInsert (k : K) (c : Tree K V) (hp : c.parent = Link.owner)
    (hc : c.linked = true) :
    ∀ f : Forest K V, f.linked = true → (f.mapInsert k c).linked = true
  | .nil => by simp [Forest.mapInsert, Forest.linked, hp, hc]
  | .cons k2 c2 rest => by
    intro h
    have h3 := h
    simp only [Forest.linked, Bool.and_eq_true, decide_eq_true_eq] at h3
    by_cases h1 : k2 < k
    · simp [Forest.mapInsert, h1, Forest.linked, h3.1, h3.2.1,
        Forest.linked_mapInsert k c hp hc rest h3.2.2]
    · by_cases h2 : k < k2
      · simp [Forest.mapInsert, h1, h2, Forest.linked, hp, hc, h3.1, h3.2.1, h3.2.2]
      · simp [Forest.mapInsert, h1, h2, h]

theorem Forest.linked_modify (k : K) (g : Tree K V → Tree K V)
    (hg : ∀ c : Tree K V, c.parent = Link.owner → c.linked = true →
      (g c).parent = Link.owner ∧ (g c).linked = true) :
    ∀ f : Forest K V, f.linked = true → (f.modify k g).linked = true
  | .nil => by simp [Forest.modify]
  | .cons k2 c2 rest => by
    intro h
    have h3 := h
    simp only [Forest.linked, Bool.and_eq_true, decide_eq_true_eq] at h3
    by_cases h1 : k2 < k
    · simp [Forest.modify, h1, Forest.linked, h3.1, h3.2.1,
        Forest.linked_modify k g hg rest h3.2.2]
    · by_cases h2 : k < k2
      · simp [Forest.modify, h1, h2, h]
      · simp [Forest.modify, h1, h2, Forest.linked, (hg c2 h3.1 h3.2.1).1,
          (hg c2 h3.1 h3.2.1).2, h3.2.2]

theorem Forest.linked_mapErase (k : K) :
    ∀ f : Forest K V, f.linked = true → (f.mapErase k).linked = true
  | .nil => by simp [Forest.mapErase]
  | .cons k2 c2 rest => by
    intro h
    have h3 := h
    simp only [Forest.linked, Bool.and_eq_true, decide_eq_true_eq] at h3
    by_cases h1 : k2 < k
    · simp [Forest.mapErase, h1, Forest.linked, h3.1, h3.2.1,
        Forest.linked_mapErase k rest h3.2.2]
    · by_cases h2 : k < k2
      · simp [Forest.mapErase, h1, h2, h]
      · simp [Forest.mapErase, h1, h2, h3.2.2]

theorem Forest.linked_find {k : K} {c : Tree K V} :
    ∀ f : Forest K V, f.linked = true → f.find k = some c →
      c.parent = Link.owner ∧ c.linked = true
  | .nil => by simp [Forest.find]
  | .cons k2 c2 rest => by
    intro h hf
    simp only [Forest.linked, Bool.and_eq_true, decide_eq_true_eq] at h
    by_cases h1 : k2 < k
    · simp only [Forest.find, h1, if_true] at hf
      exact Forest.linked_find rest h.2.2 hf
    · by_cases h2 : k < k2
      · simp [Forest.find, h1, h2] at hf
      · simp only [Forest.find, h1, h2, if_false, Option.some.injEq] at hf
        rw [← hf]
        exact ⟨h.1, h.2.1⟩

theorem Tree.linked_insert [Zero V] (t : Tree K V) (k : K) (h : t.linked = true) :
    (t.insert k).1.linked = true ∧ (t.insert k).1.parent = t.parent := by
  cases t with
  | node v p cs =>
    rw [Tree.insert_fst, Forest.modify_mapInsert]
    refine ⟨?_, rfl⟩
    simp only [Tree.linked] at h ⊢
    apply Forest.linked_mapInsert
    · rfl
    · rfl
    · apply Forest.linked_modify _ _ _ cs h
      intro c hp hc
      cases c
      exact ⟨rfl, by simpa [Tree.setParent, Tree.linked] using hc⟩

theorem Tree.linked_erase (t : Tree K V) (k : K) (h : t.linked = true) :
    (t.erase k).linked = true ∧ (t.erase k).parent = t.parent := by
  cases t with
  | node v p cs =>
    simp only [Tree.linked] at h
    cases hf : cs.find k with
    | none => simp [Tree.erase, hf, Tree.linked, Tree.parent, h]
    | some c => simp [Tree.erase, hf, Tree.linked, Tree.parent, Forest.linked_mapErase k cs h]

theorem Tree.linked_applyAt [Zero V] (act : Action K V) :
    ∀ (ks : List K) (t : Tree K V), t.linked = true →
      (t.applyAt ks act).linked = true ∧ (t.applyAt ks act).parent = t.parent
  | [], t => by
    intro h
    cases act with
    | touch => exact ⟨h, rfl⟩
    | set v =>
      cases t
      exact ⟨by simpa [Tree.applyAt, Tree.set, Tree.linked] using h, rfl⟩
    | erase k => exact Tree.linked_erase t k h
  | k :: ks, t => by
    intro h
    have hi := Tree.linked_insert t k h
    simp only [Tree.applyAt]
    cases hins : (t.insert k).1 with
    | node v p cs =>
      rw [hins] at hi
      simp only [Tree.linked, Tree.parent] at hi ⊢
      refine ⟨?_, hi.2⟩
      apply Forest.linked_modify _ _ _ cs hi.1
      intro c hp hc
      have ih := Tree.linked_applyAt act ks c hc
      exact ⟨by rw [ih.2, hp], ih.1⟩

theorem Tree.linked_foldl [Zero V] :
    ∀ (prog : List (List K × Action K V)) (t : Tree K V), t.linked = true →
      (prog.foldl (fun t c => t.applyAt c.1 c.2) t).linked = true
      ∧ (prog.foldl (fun t c => t.applyAt c.1 c.2) t).parent = t.parent
  | [], t => by
    intro h
    exact ⟨h, rfl⟩
  | c :: prog, t => by
    intro h
    have h1 := Tree.linked_applyAt c.2 c.1 t h
    have h2 := Tree.linked_foldl prog (t.applyAt c.1 c.2) h1.1
    simp only [List.foldl]
    exact ⟨h2.1, by rw [h2.2, h1.2]⟩

theorem Tree.linked_build [Zero V] (prog : List (List K × Action K V)) :
    (Tree.build prog : Tree K V).linked = true
    ∧ (Tree.build prog : Tree K V).parent = Link.self :=
  Tree.linked_foldl prog Tree.new rfl

theorem Tree.nodeAt_append : ∀ (p q : List K) (t : Tree K V),
    t.nodeAt (p ++ q) = (t.nodeAt p).bind (Tree.nodeAt q)
  | [], q, t => by simp [Tree.nodeAt]
  | k :: p, q, t => by
    simp only [List.cons_append, Tree.nodeAt]
    cases t.children.find k with
    | none => rfl
    | some c => exact Tree.nodeAt_append p q c

theorem Tree.linked_nodeAt {n : Tree K V} : ∀ (p : List K) (t : Tree K V),
    t.linked = true → p ≠ [] → t.nodeAt p = some n →
      n.parent = Link.owner ∧ n.linked = true
  | [], t => by
    intro _ hp
    exact absurd rfl hp
  | k :: ks, t => by
    intro h _ hn
    simp only [Tree.nodeAt] at hn
    cases hf : t.children.find k with
    | none => simp [hf] at hn
    | some c =>
      simp only [hf] at hn
      have hc : c.parent = Link.owner ∧ c.linked = true := by
        cases t
        exact Forest.linked_find _ (by simpa [Tree.linked] using h) hf
      cases ks with
      | nil =>
        simp only [Tree.nodeAt, Option.some.injEq] at hn
        rw [← hn]
        exact hc
      | cons k2 ks2 => exact Tree.linked_nodeAt (k2 :: ks2) c hc.2 (by simp) hn

theorem Tree.nodeAt_snoc {r n : Tree K V} {p : List K} {k : K}
    (h : r.nodeAt (p ++ [k]) = some n) :
    ∃ pn : Tree K V, r.nodeAt p = some pn ∧ pn.children.find k = some n := by
  rw [Tree.nodeAt_append] at h
  cases hp : r.nodeAt p with
  | none => simp [hp] at h
  | some pn =>
    refine ⟨pn, rfl, ?_⟩
    simp only [hp, Option.some_bind, Tree.nodeAt] at h
    cases hf : pn.children.find k with
    | none => simp [hf] at h
    | some c =>
      simp only [hf, Option.some.injEq] at h
      rw [h]

theorem Tree.up_snoc {r n : Tree K V} {p : List K} {k : K}
    (hn : r.nodeAt (p ++ [k]) = some n) (hp : n.parent = Link.owner) :
    r.up (p ++ [k]) = some p := by
  simp [Tree.up, hn, hp]

theorem Tree.root_of_linked (r : Tree K V) (hl : r.linked = true)
    (hr : r.parent = Link.self) :
    ∀ (p : List K) (n : Tree K V), r.nodeAt p = some n → r.root p = some [] := by
  intro p
  induction p using List.reverseRecOn with
  | nil =>
    intro n _
    simp [Tree.root, Tree.rootFrom, Tree.nodeAt, Tree.is_root, hr]
  | append_singleton q k ih =>
    intro n hn
    obtain ⟨pn, hpn, _⟩ := Tree.nodeAt_snoc hn
    have hown := (Tree.linked_nodeAt (q ++ [k]) r hl (by simp) hn).1
    have hup := Tree.up_snoc hn hown
    have ihq := ih pn hpn
    simp only [Tree.root] at ihq ⊢
    simp only [List.length_append, List.length_singleton, Tree.rootFrom, hn, Tree.is_root,
      hown, hup]
    simpa using ihq

/-- C9 (root invariant of insert-built trees).  In the tree that any sequence of
statements `root[k1]...[kn]`, `root[k1]...[kn].set(v)`, `root[k1]...[kn].erase(k)` builds
from a freshly constructed root: the root is a root and its `up()` is itself; every node
`n` stored under key `k` in a node `p` is no root, its `up()` is `p`, and `p.has(k)`; and
`root()` called on any node returns the root. -/
theorem built_tree_root_invariant [Zero V] (prog : List (List K × Action K V)) :
    (Tree.build prog : Tree K V).is_root = true
    ∧ (Tree.build prog : Tree K V).up [] = some []
    ∧ (∀ (p : List K) (k : K) (n : Tree K V),
        (Tree.build prog : Tree K V).nodeAt (p ++ [k]) = some n →
          n.is_root = false
          ∧ (Tree.build prog : Tree K V).up (p ++ [k]) = some p
          ∧ ∃ pn : Tree K V, (Tree.build prog : Tree K V).nodeAt p = some pn
              ∧ pn.children.find k = some n ∧ pn.has k = true)
    ∧ (∀ (p : List K) (n : Tree K V),
        (Tree.build prog : Tree K V).nodeAt p = some n →
          (Tree.build prog : Tree K V).root p = some []) := by
  obtain ⟨hl, hr⟩ := Tree.linked_build (V := V) prog
  refine ⟨?_, ?_, ?_, Tree.root_of_linked _ hl hr⟩
  · simp [Tree.is_root, hr]
  · simp [Tree.up, Tree.nodeAt, hr]
  · intro p k n hn
    have hown := (Tree.linked_nodeAt (p ++ [k]) _ hl (by simp) hn).1
    obtain ⟨pn, hpn, hf⟩ := Tree.nodeAt_snoc hn
    refine ⟨by simp [Tree.is_root, hown], Tree.up_snoc hn hown, pn, hpn, hf, ?_⟩
    simp [Tree.has, Tree.empty, hf]

/-- Witness of C9: in the tree built by `root[1].set(6); root[1][2].set(8); root.set(4)`
the node under `1, 2` is no root, its `up()` is the node under `1`, and its `root()` is the
root. -/
theorem built_tree_root_invariant_witness :
    (Tree.node 8 Link.owner Forest.nil : Tree Nat Int).is_root = false
    ∧ copySource.up ([1] ++ [2]) = some [1]
    ∧ copySource.root [1, 2] = some [] :=
  ⟨((built_tree_root_invariant [([1], .set 6), ([1, 2], .set 8), ([], .set 4)]).2.2.1
      [1] 2 (Tree.node 8 Link.owner Forest.nil) (by decide)).1,
   ((built_tree_root_invariant [([1], .set 6), ([1, 2], .set 8), ([], .set 4)]).2.2.1
      [1] 2 (Tree.node 8 Link.owner Forest.nil) (by decide)).2.1,
   (built_tree_root_invariant [([1], .set 6), ([1, 2], .set 8), ([], .set 4)]).2.2.2
      [1, 2] (Tree.node 8 Link.owner Forest.nil) (by decide)⟩

/-! ## Bottom-up recomputation -/

theorem Forest.size_eq_zero : ∀ cs : Forest K V, cs.size = 0 ↔ cs = Forest.nil
  | .nil => by simp [Forest.size]
  | .cons k c rest => by simp [Forest.size]

theorem Tree.leafValues_node (v : V) (p : Link) :
    ∀ cs : Forest K V, cs.size ≠ 0 → (Tree.node v p cs).leafValues = cs.leafValues
  | .nil => by simp [Forest.size]
  | .cons k c rest => by simp [Tree.leafValues, Forest.leafValues]

mutual
theorem Tree.refresh_eq [AddCommMonoid V] :
    ∀ t : Tree K V, t.refresh = (t.rollup, t.leafValues.sum)
  | .node v p .nil => by
    simp [Tree.refresh, Forest.refreshLoop, Tree.rollup, Forest.rollup, Tree.leafValues,
      Forest.size]
  | .node v p (.cons k c rest) => by
    have h := Forest.refreshLoop_eq (.cons k c rest) (0 : V)
    simp only [Tree.refresh, Tree.rollup, Forest.size, Nat.add_one_ne_zero, if_false, h,
      zero_add]
    simp [Tree.leafValues, Forest.leafValues]
theorem Forest.refreshLoop_eq [AddCommMonoid V] :
    ∀ (cs : Forest K V) (acc : V), cs.refreshLoop acc = (cs.rollup, acc + cs.leafValues.sum)
  | .nil, acc => by simp [Forest.refreshLoop, Forest.rollup, Forest.leafValues]
  | .cons k c rest, acc => by
    simp [Forest.refreshLoop, Forest.rollup, Forest.leafValues, Tree.refresh_eq c,
      Forest.refreshLoop_eq rest, add_assoc]
end

theorem Forest.keys_rollup [AddCommMonoid V] :
    ∀ cs : Forest K V, cs.rollup.keys = cs.keys
  | .nil => rfl
  | .cons k c rest => by simp [Forest.rollup, Forest.keys, Forest.keys_rollup rest]

theorem Forest.find_rollup [AddCommMonoid V] (x : K) :
    ∀ cs : Forest K V, cs.rollup.find x = (cs.find x).map Tree.rollup
  | .nil => rfl
  | .cons k c rest => by
    by_cases h1 : k < x
    · simp [Forest.rollup, Forest.find, h1, Forest.find_rollup x rest]
    · by_cases h2 : x < k
      · simp [Forest.rollup, Forest.find, h1, h2]
      · simp [Forest.rollup, Forest.find, h1, h2]

theorem Tree.nodeAt_rollup [AddCommMonoid V] :
    ∀ (p : List K) (t : Tree K V), t.rollup.nodeAt p = (t.nodeAt p).map Tree.rollup
  | [], t => by simp [Tree.nodeAt]
  | k :: ks, .node v l cs => by
    simp only [Tree.nodeAt, Tree.rollup, Tree.children, Forest.find_rollup]
    cases cs.find k with
    | none => rfl
    | some c => exact Tree.nodeAt_rollup ks c

/-- C11 (`refresh`).  For every value type whose `+=` is a commutative monoid with
`zero<V>()` (the integers among them): `refresh()` returns the new value of the node it is
called on; the refreshed tree has a node at exactly the paths the tree had one, with the
same keys below it and the same `parent`; a leaf keeps its stored value; an internal node
gets the sum of the stored values of the leaves beneath it, whatever it held before; and
when every leaf beneath it holds the same value `e`, in particular 1, that sum is the
number of leaves beneath it times `e`. -/
theorem refresh_rolls_up_leaves [AddCommMonoid V] (t : Tree K V) :
    t.refresh.2 = t.refresh.1.get
    ∧ t.refresh.1 = t.rollup
    ∧ (∀ p : List K, t.nodeAt p = none → t.refresh.1.nodeAt p = none)
    ∧ (∀ (p : List K) (n : Tree K V), t.nodeAt p = some n →
        ∃ n2 : Tree K V, t.refresh.1.nodeAt p = some n2
          ∧ n2.children.keys = n.children.keys
          ∧ n2.parent = n.parent
          ∧ (n.children.size = 0 → n2.get = n.get)
          ∧ (n.children.size ≠ 0 → n2.get = n.leafValues.sum)
          ∧ (∀ e : V, n.children.size ≠ 0 → (∀ x ∈ n.leafValues, x = e) →
              n2.get = n.leafValues.length • e)) := by
  have h1 : t.refresh.1 = t.rollup := by rw [Tree.refresh_eq]
  have hval : ∀ n : Tree K V, n.children.size ≠ 0 → n.rollup.get = n.leafValues.sum := by
    intro n hn
    cases n with
    | node v l cs =>
      simp only [Tree.children] at hn
      simp [Tree.rollup, Tree.get, hn, Tree.leafValues_node v l cs hn]
  refine ⟨?_, h1, ?_, ?_⟩
  · rw [Tree.refresh_eq]
    cases t with
    | node v l cs =>
      cases cs with
      | nil => simp [Tree.rollup, Tree.get, Tree.leafValues, Forest.size]
      | cons k c rest =>
        simp [Tree.rollup, Tree.get, Tree.leafValues, Forest.leafValues, Forest.size]
  · intro p hp
    rw [h1, Tree.nodeAt_rollup, hp]
    rfl
  · intro p n hp
    refine ⟨n.rollup, ?_, ?_, ?_, ?_, hval n, ?_⟩
    · rw [h1, Tree.nodeAt_rollup, hp]
      rfl
    · cases n
      simp [Tree.rollup, Tree.children, Forest.keys_rollup]
    · cases n
      rfl
    · intro hn
      cases n
      simp only [Tree.children] at hn
      simp [Tree.rollup, Tree.get, hn]
    · intro e hn he
      rw [hval n hn, List.eq_replicate_of_mem he]
      simp

/-- Witness of C11: in `refreshExample` every leaf holds 1; after `refresh()` the internal
node under `1`, which held -3, holds 2, the number of leaves beneath it, and the call on
the root returns 3. -/
theorem refresh_rolls_up_leaves_witness :
    refreshExample.refresh.2 = 3
    ∧ ∃ n2 : Tree Nat Int, refreshExample.refresh.1.nodeAt [1] = some n2
        ∧ n2.get = (2 : ℕ) • (1 : Int) :=
  ⟨by decide,
   by
    obtain ⟨n2, h1, _, _, _, _, h6⟩ := (refresh_rolls_up_leaves refreshExample).2.2.2 [1]
      (Tree.node (-3) Link.owner
        (Forest.cons 4 (Tree.node 1 Link.owner Forest.nil)
          (Forest.cons 5 (Tree.node 1 Link.owner Forest.nil) Forest.nil))) (by decide)
    exact ⟨n2, h1, h6 1 (by decide) (by decide)⟩⟩

/-! ## The statements `t[k] += x; t[k].get() = v` -/

theorem Tree.mergeAt_eq [Zero V] (t : Tree K V) (k : K) (x : Tree K V) (v : V) :
    t.mergeAt k x v = .node t.get t.parent
      ((t.children.mapInsert k Tree.new).modify k
        (fun e => .node v .owner (Forest.mergeInto x.children e.children))) := by
  cases t with
  | node v0 p cs =>
    have h1 : ((((cs.mapInsert k Tree.new).modify k (Tree.setParent Link.owner)).modify k
        (fun e => e.opAddAssign (Arg.other x))).find k).isSome = true := by
      simp [Forest.find_modify_self, Forest.find_mapInsert_self]
    simp only [Tree.mergeAt, Tree.insert_fst, Tree.modifyChild, Tree.get, Tree.parent,
      Tree.children]
    rw [Forest.mapInsert_of_find _ _ h1]
    simp only [Forest.modify_modify]
    congr 2
    funext e
    cases e
    rfl

theorem Forest.modify_append_last (k : K) (g : Tree K V → Tree K V) (c : Tree K V) :
    ∀ f : Forest K V, (∀ x ∈ f.keys, x < k) →
      (f.append (.cons k c .nil)).modify k g = f.append (.cons k (g c) .nil)
  | .nil => by simp [Forest.append, Forest.modify]
  | .cons k2 c2 rest => by
    intro h
    have h1 : k2 < k := h k2 (by simp [Forest.keys])
    have h2 : ∀ x ∈ rest.keys, x < k := fun x hx => h x (by simp [Forest.keys, hx])
    simp [Forest.append, Forest.modify, h1, Forest.modify_append_last k g c rest h2]

theorem Tree.mergeAt_above [Zero V] (t : Tree K V) (k : K) (x : Tree K V) (v : V)
    (hx : x.wf = true) (hk : ∀ y ∈ t.children.keys, y < k) :
    t.mergeAt k x v = .node t.get t.parent
      (t.children.append (.cons k (.node v .owner x.children.shape) .nil)) := by
  have hxc : x.children.wf = true := by
    cases x
    simpa [Tree.wf, Tree.children] using hx
  rw [Tree.mergeAt_eq, Forest.mapInsert_above k _ _ hk, Forest.modify_append_last k _ _ _ hk]
  have h := Forest.mergeInto_eq_append x.children Forest.nil hxc (by simp [Forest.keys])
  simp only [Forest.append] at h
  have h2 : (Tree.new : Tree K V).children = Forest.nil := rfl
  simp only [h2, h]

theorem Tree.wf_mergeAt [Zero V] (t : Tree K V) (k : K) (x : Tree K V) (v : V)
    (ht : t.wf = true) (hx : x.wf = true) : (t.mergeAt k x v).wf = true := by
  have hxc : x.children.wf = true := by
    cases x
    simpa [Tree.wf, Tree.children] using hx
  rw [Tree.mergeAt_eq]
  cases t with
  | node v0 p cs =>
    simp only [Tree.wf, Tree.children] at ht ⊢
    apply Forest.wf_modify
    · intro c hc
      cases c
      simp only [Tree.wf, Tree.children] at hc ⊢
      exact Forest.wf_mergeInto _ _ hxc hc
    · exact Forest.wf_mapInsert k Tree.new rfl cs ht

/-! ## Collapse -/

theorem Tree.collapse_nil [Zero V] (v : V) (p : Link) :
    (Tree.node v p (Forest.nil : Forest K V)).collapse = Tree.new := by
  simp [Tree.collapse, Forest.size, Forest.collapseLoop, Tree.new, Tree.copy,
    Forest.mergeInto]

theorem Tree.collapse_single [Zero V] (v : V) (p : Link) (k : K) (c : Tree K V) :
    (Tree.node v p (Forest.cons k c Forest.nil)).collapse = c.collapse := by
  simp [Tree.collapse, Forest.size]

theorem Tree.collapse_many [Zero V] (v : V) (p : Link) (cs : Forest K V)
    (h : cs.size ≠ 1) :
    (Tree.node v p cs).collapse = (cs.collapseLoop Tree.new).copy := by
  cases cs with
  | nil => simp [Tree.collapse, Forest.size]
  | cons k c rest => simp [Tree.collapse, h]

theorem Tree.get_copy (t : Tree K V) : t.copy.get = t.get := by
  cases t
  rfl

theorem Forest.get_collapseLoop [Zero V] :
    ∀ (cs : Forest K V) (t : Tree K V), (cs.collapseLoop t).get = t.get
  | .nil, t => rfl
  | .cons k c rest, t => by
    simp only [Forest.collapseLoop]
    rw [Forest.get_collapseLoop rest, Tree.mergeAt_eq]
    rfl

theorem Tree.get_collapse [Zero V] : ∀ t : Tree K V, t.collapse.get = 0
  | .node v p .nil => by
    rw [Tree.collapse_nil]
    rfl
  | .node v p (.cons k c .nil) => by
    rw [Tree.collapse_single]
    exact Tree.get_collapse c
  | .node v p (.cons k c (.cons k2 c2 rest)) => by
    rw [Tree.collapse_many _ _ _ (by simp [Forest.size]), Tree.get_copy,
      Forest.get_collapseLoop]
    rfl

mutual
theorem Tree.wf_collapse [Zero V] : ∀ t : Tree K V, t.collapse.wf = true
  | .node v p .nil => by
    rw [Tree.collapse_nil]
    rfl
  | .node v p (.cons k c .nil) => by
    rw [Tree.collapse_single]
    exact Tree.wf_collapse c
  | .node v p (.cons k c (.cons k2 c2 rest)) => by
    rw [Tree.collapse_many _ _ _ (by simp [Forest.size])]
    exact Tree.wf_copy _
      (Forest.wf_collapseLoop (.cons k c (.cons k2 c2 rest)) Tree.new rfl)
theorem Forest.wf_collapseLoop [Zero V] :
    ∀ (cs : Forest K V) (t : Tree K V), t.wf = true → (cs.collapseLoop t).wf = true
  | .nil, t => fun h => h
  | .cons k c rest, t => by
    intro h
    simp only [Forest.collapseLoop]
    exact Forest.wf_collapseLoop rest _ (Tree.wf_mergeAt t k _ _ h (Tree.wf_collapse c))
end

theorem Forest.collapseLoop_eq [Zero V] :
    ∀ (cs : Forest K V) (t : Tree K V), cs.sorted = true →
      (∀ x ∈ t.children.keys, cs.headAbove x = true) →
      cs.collapseLoop t = .node t.get t.parent (t.children.append cs.collapseEntries)
  | .nil, t => by
    intro _ _
    cases t
    simp [Forest.collapseLoop, Forest.collapseEntries, Forest.append_nil, Tree.get,
      Tree.parent, Tree.children]
  | .cons k c rest, t => by
    intro hs hb
    simp only [Forest.sorted, Bool.and_eq_true] at hs
    have hb2 : ∀ x ∈ t.children.keys, x < k := fun x hx => by
      simpa [Forest.headAbove] using hb x hx
    simp only [Forest.collapseLoop]
    rw [Tree.mergeAt_above t k _ _ (Tree.wf_collapse c) hb2]
    rw [Forest.collapseLoop_eq rest _ hs.2]
    · simp [Tree.get, Tree.parent, Tree.children, Forest.append_assoc, Forest.append,
        Forest.collapseEntries, Tree.collapseEntry]
    · intro x hx
      simp only [Tree.children, Forest.keys_append, Forest.keys, List.mem_append,
        List.mem_singleton] at hx
      rcases hx with hx | hx
      · exact Forest.headAbove_trans (hb2 x hx) rest hs.1
      · rw [hx]
        exact hs.1

theorem Tree.collapse_many_eq [Zero V] (v : V) (p : Link) (cs : Forest K V)
    (h : cs.size ≠ 1) (hs : cs.sorted = true) :
    (Tree.node v p cs).collapse = .node 0 .self cs.collapseEntries.shape := by
  rw [Tree.collapse_many v p cs h,
    Tree.copy_eq_shape _ (Forest.wf_collapseLoop cs Tree.new rfl),
    Forest.collapseLoop_eq cs Tree.new hs (by
      intro x hx
      simp [Tree.new, Tree.children, Forest.keys] at hx)]
  rfl

theorem Forest.size_shape : ∀ cs : Forest K V, cs.shape.size = cs.size
  | .nil => rfl
  | .cons k c rest => by simp [Forest.shape, Forest.size, Forest.size_shape rest]

mutual
theorem Tree.noSingle_shape : ∀ t : Tree K V, t.shape.noSingle = t.noSingle
  | .node v p cs => by
    simp [Tree.shape, Tree.noSingle, Forest.size_shape, Forest.noSingle_shapeAll cs]
theorem Forest.noSingle_shapeAll : ∀ cs : Forest K V, cs.shape.noSingle = cs.noSingle
  | .nil => rfl
  | .cons k c rest => by
    simp [Forest.shape, Forest.noSingle, Tree.noSingle_shape c, Forest.noSingle_shapeAll rest]
end

theorem Tree.noSingle_children (t : Tree K V) (h : t.noSingle = true) :
    t.children.size ≠ 1 ∧ t.children.noSingle = true := by
  cases t
  simpa [Tree.noSingle, Tree.children] using h

theorem Forest.size_collapseEntries [Zero V] :
    ∀ cs : Forest K V, cs.collapseEntries.size = cs.size
  | .nil => rfl
  | .cons k c rest => by
    simp [Forest.collapseEntries, Forest.size, Forest.size_collapseEntries rest]

theorem Forest.keys_collapseEntries [Zero V] :
    ∀ cs : Forest K V, cs.collapseEntries.keys = cs.keys
  | .nil => rfl
  | .cons k c rest => by
    simp [Forest.collapseEntries, Forest.keys, Forest.keys_collapseEntries rest]

theorem Forest.find_collapseEntries [Zero V] (x : K) :
    ∀ cs : Forest K V, cs.collapseEntries.find x = (cs.find x).map Tree.collapseEntry
  | .nil => rfl
  | .cons k c rest => by
    by_cases h1 : k < x
    · simp [Forest.collapseEntries, Forest.find, h1, Forest.find_collapseEntries x rest]
    · by_cases h2 : x < k
      · simp [Forest.collapseEntries, Forest.find, h1, h2]
      · simp [Forest.collapseEntries, Forest.find, h1, h2]

mutual
theorem Tree.noSingle_collapse [Zero V] :
    ∀ t : Tree K V, t.wf = true → t.collapse.noSingle = true
  | .node v p .nil => by
    intro _
    rw [Tree.collapse_nil]
    rfl
  | .node v p (.cons k c .nil) => by
    intro h
    rw [Tree.collapse_single]
    simp only [Tree.wf, Forest.wf, Bool.and_eq_true] at h
    exact Tree.noSingle_collapse c h.2.1
  | .node v p (.cons k c (.cons k2 c2 rest)) => by
    intro h
    simp only [Tree.wf] at h
    rw [Tree.collapse_many_eq _ _ _ (by simp [Forest.size]) (Forest.sorted_of_wf _ h)]
    have h2 := Forest.noSingle_collapseEntries (.cons k c (.cons k2 c2 rest)) h
    simp [Tree.noSingle, Forest.size_shape, Forest.noSingle_shapeAll,
      Forest.size_collapseEntries, Forest.size, h2]
theorem Forest.noSingle_collapseEntries [Zero V] :
    ∀ cs : Forest K V, cs.wf = true → cs.collapseEntries.noSingle = true
  | .nil => fun _ => rfl
  | .cons k c rest => by
    intro h
    simp only [Forest.wf, Bool.and_eq_true] at h
    have hc := Tree.noSingle_children _ (Tree.noSingle_collapse c h.2.1)
    simp [Forest.collapseEntries, Forest.noSingle, Tree.collapseEntry, Tree.noSingle,
      Forest.size_shape, Forest.noSingle_shapeAll, hc.1, hc.2,
      Forest.noSingle_collapseEntries rest h.2.2]
end

theorem Tree.shape_children (t : Tree K V) : t.shape.children = t.children.shape := by
  cases t
  rfl

mutual
theorem Tree.shape_collapse_of_noSingle [Zero V] :
    ∀ u : Tree K V, u.wf = true → u.noSingle = true →
      u.collapse.shape = .node 0 .self u.children.shape
  | .node v p cs => by
    intro hw hn
    simp only [Tree.wf] at hw
    simp only [Tree.noSingle, Bool.and_eq_true, decide_eq_true_eq] at hn
    rw [Tree.collapse_many_eq _ _ _ hn.1 (Forest.sorted_of_wf _ hw)]
    simp [Tree.shape, Tree.children, Forest.shape_idemAll,
      Forest.shape_collapseEntries_of_noSingle cs hw hn.2]
theorem Forest.shape_collapseEntries_of_noSingle [Zero V] :
    ∀ cs : Forest K V, cs.wf = true → cs.noSingle = true →
      cs.collapseEntries.shape = cs.shape
  | .nil => fun _ _ => rfl
  | .cons k c rest => by
    intro hw hn
    simp only [Forest.wf, Bool.and_eq_true] at hw
    simp only [Forest.noSingle, Bool.and_eq_true] at hn
    have h1 := Tree.shape_collapse_of_noSingle c hw.2.1 hn.1
    have h2 : c.collapse.children.shape = c.children.shape := by
      rw [← Tree.shape_children, h1]
      rfl
    have h3 : c.collapseEntry.shape = c.shape := by
      cases c
      simp only [Tree.collapseEntry, Tree.shape, h2, Forest.shape_idemAll]
      rfl
    simp [Forest.collapseEntries, Forest.shape, h3,
      Forest.shape_collapseEntries_of_noSingle rest hw.2.2 hn.2]
end

theorem Tree.shape_collapseEntry [Zero V] (c : Tree K V) :
    c.collapseEntry.shape = (c.collapse.set c.get).shape := by
  cases hc : c.collapse with
  | node v p cs =>
    simp only [Tree.collapseEntry, hc, Tree.set, Tree.shape, Tree.children,
      Forest.shape_idemAll]

theorem Forest.noSingle_find {x : K} {c : Tree K V} :
    ∀ f : Forest K V, f.noSingle = true → f.find x = some c → c.noSingle = true
  | .nil => by simp [Forest.find]
  | .cons k c2 rest => by
    intro h hf
    simp only [Forest.noSingle, Bool.and_eq_true] at h
    by_cases h1 : k < x
    · simp only [Forest.find, h1, if_true] at hf
      exact Forest.noSingle_find rest h.2 hf
    · by_cases h2 : x < k
      · simp [Forest.find, h1, h2] at hf
      · simp only [Forest.find, h1, h2, if_false, Option.some.injEq] at hf
        rw [← hf]
        exact h.1

theorem Tree.noSingle_nodeAt {n : Tree K V} : ∀ (p : List K) (t : Tree K V),
    t.noSingle = true → t.nodeAt p = some n → n.noSingle = true
  | [], t => by
    intro h hn
    simp only [Tree.nodeAt, Option.some.injEq] at hn
    rw [← hn]
    exact h
  | k :: ks, t => by
    intro h hn
    simp only [Tree.nodeAt] at hn
    cases hf : t.children.find k with
    | none => simp [hf] at hn
    | some c =>
      simp only [hf] at hn
      exact Tree.noSingle_nodeAt ks c
        (Forest.noSingle_find _ (Tree.noSingle_children t h).2 hf) hn

/-- C12, as stated, fails: `chainLeaf` is a chain `root → a → b → c` of single children
whose last node `c` is a leaf with value 5; its collapse is a freshly constructed node,
whose value is 0, not the value of `c`. -/
theorem collapse_chain_drops_value :
    chainLeaf.collapse = Tree.new
    ∧ chainLeaf.collapse.get ≠ (Tree.node 5 Link.owner Forest.nil : Tree Nat Int).get := by
  decide

/-- C12, amended.  For every chain `root → a → b → c` in which `root`, `a` and `b` each
have exactly one child, `root.collapse()` is what `c.collapse()` is: a node with the zero
value; and when `c` does not have exactly one child (its map satisfying the `std::map`
invariant), that node has exactly the keys of `c`, and the child under each key is, in
structure, keys and the value of every node, the collapse of the child of `c` under that
key with the value of that child as its own value. -/
theorem collapse_chain [Zero V] (vr va vb : V) (pr pa pb : Link) (ka kb kc : K)
    (c : Tree K V) :
    (Tree.node vr pr (.cons ka (.node va pa (.cons kb (.node vb pb
        (.cons kc c .nil)) .nil)) .nil)).collapse = c.collapse
    ∧ c.collapse.get = 0
    ∧ (c.children.size ≠ 1 → c.children.sorted = true →
        c.collapse.children.keys = c.children.keys
        ∧ ∀ k : K, (c.collapse.children.find k).map Tree.shape
            = (c.children.find k).map (fun ch => (ch.collapse.set ch.get).shape)) := by
  refine ⟨?_, Tree.get_collapse c, ?_⟩
  · rw [Tree.collapse_single, Tree.collapse_single, Tree.collapse_single]
  · intro hsz hs
    cases c with
    | node v p cs =>
      simp only [Tree.children] at hsz hs
      rw [Tree.collapse_many_eq v p cs hsz hs]
      refine ⟨by simp [Tree.children, Forest.keys_shape, Forest.keys_collapseEntries], ?_⟩
      intro k
      simp only [Tree.children, Forest.find_shape, Forest.find_collapseEntries,
        Option.map_map]
      congr 1
      funext ch
      simp only [Function.comp, Tree.shape_idem, Tree.shape_collapseEntry]

/-- Witness of the amended C12: the chain `chainFork`, whose last node `chainForkEnd` has the
two children `4` and `5`. -/
theorem collapse_chain_witness :
    (Tree.node 9 Link.self (.cons 1 (.node 8 .owner (.cons 2 (.node 7 .owner
        (.cons 3 chainForkEnd .nil)) .nil)) .nil)).collapse = chainForkEnd.collapse
    ∧ chainForkEnd.collapse.children.keys = chainForkEnd.children.keys
    ∧ (chainForkEnd.collapse.children.find 4).map Tree.shape
        = (chainForkEnd.children.find 4).map (fun ch => (ch.collapse.set ch.get).shape) :=
  ⟨(collapse_chain (9 : Int) 8 7 Link.self Link.owner Link.owner 1 2 3 chainForkEnd).1,
   ((collapse_chain (9 : Int) 8 7 Link.self Link.owner Link.owner 1 2 3 chainForkEnd).2.2
      (by decide) (by decide)).1,
   ((collapse_chain (9 : Int) 8 7 Link.self Link.owner Link.owner 1 2 3 chainForkEnd).2.2
      (by decide) (by decide)).2 4⟩

/-- C13 (collapse leaves no singleton).  For every tree `t` that satisfies the `std::map`
invariant, no node of `t.collapse()`, the returned root or any node reached from it along
a path of keys, has exactly one child. -/
theorem collapse_no_single_child [Zero V] (t : Tree K V) (h : t.wf = true) :
    t.collapse.noSingle = true
    ∧ t.collapse.children.size ≠ 1
    ∧ ∀ (p : List K) (n : Tree K V),
        t.collapse.nodeAt p = some n → n.children.size ≠ 1 := by
  have hn := Tree.noSingle_collapse t h
  refine ⟨hn, (Tree.noSingle_children _ hn).1, ?_⟩
  intro p n hp
  exact (Tree.noSingle_children _ (Tree.noSingle_nodeAt p _ hn hp)).1

/-- Witness of C13: the collapse of `chainFork`. -/
theorem collapse_no_single_child_witness :
    chainFork.collapse.noSingle = true
    ∧ (Tree.node 6 Link.self (Forest.cons 7 (Tree.node 12 Link.self Forest.nil)
        (Forest.cons 8 (Tree.node 13 Link.self Forest.nil) Forest.nil))
          : Tree Nat Int).children.size ≠ 1 :=
  ⟨(collapse_no_single_child chainFork (by decide)).1,
   (collapse_no_single_child chainFork (by decide)).2.2 [4] _ (by decide)⟩

/-- C20 (collapse is idempotent).  For every tree `t` that satisfies the `std::map`
invariant, `t.collapse().collapse()` is equal to `t.collapse()` in structure, keys and the
value of every node. -/
theorem collapse_idempotent [Zero V] (t : Tree K V) (h : t.wf = true) :
    t.collapse.collapse.shape = t.collapse.shape := by
  rw [Tree.shape_collapse_of_noSingle t.collapse (Tree.wf_collapse t)
    (Tree.noSingle_collapse t h)]
  have hg := Tree.get_collapse t
  cases hc : t.collapse with
  | node v p cs =>
    rw [hc] at hg
    simp only [Tree.get] at hg
    simp [Tree.shape, Tree.children, hg]

/-- Witness of C20: `chainFork`. -/
theorem collapse_idempotent_witness :
    chainFork.collapse.collapse.shape = chainFork.collapse.shape :=
  collapse_idempotent chainFork (by decide)

/-! ## Reverse rekey -/

section Rekey

variable {U W : Type} [LinearOrder U]

theorem Tree.find_mergeAt_self [Zero V] (t : Tree K V) (k : K) (x : Tree K V) (v : V) :
    (t.mergeAt k x v).children.find k = some (.node v .owner
      (Forest.mergeInto x.children ((t.children.find k).getD Tree.new).children)) := by
  rw [Tree.mergeAt_eq]
  simp [Tree.children, Forest.find_modify_self, Forest.find_mapInsert_self]

theorem Tree.find_mergeAt_ne [Zero V] (t : Tree K V) {k u : K} (h : k ≠ u) (x : Tree K V)
    (v : V) : (t.mergeAt k x v).children.find u = t.children.find u := by
  rw [Tree.mergeAt_eq]
  simp only [Tree.children]
  rw [Forest.find_modify_ne h, Forest.find_mapInsert_ne h]

theorem Tree.find_mergeAt_fresh [Zero V] (t : Tree K V) (k : K) (x : Tree K V) (v : V)
    (hx : x.wf = true) (hk : t.children.find k = none) :
    (t.mergeAt k x v).children.find k = some (.node v .owner x.children.shape) := by
  have hxc : x.children.wf = true := by
    cases x
    simpa [Tree.wf, Tree.children] using hx
  have h := Forest.mergeInto_eq_append x.children Forest.nil hxc (by simp [Forest.keys])
  simp only [Forest.append] at h
  have h2 : (Tree.new : Tree K V).children = Forest.nil := rfl
  rw [Tree.find_mergeAt_self, hk]
  simp only [Option.getD_none, h2, h]

theorem Tree.get_mergeAt [Zero V] (t : Tree K V) (k : K) (x : Tree K V) (v : V) :
    (t.mergeAt k x v).get = t.get ∧ (t.mergeAt k x v).parent = t.parent := by
  rw [Tree.mergeAt_eq]
  exact ⟨rfl, rfl⟩

theorem Forest.findRekeyRev_eq [Zero W] (conv : V → W) (m : KeyMap U K) (k : K) :
    ∀ cs : Forest K V,
      Forest.findRekeyRev conv m k cs = (cs.find k).map (fun c => (c.rekeyRev conv m, conv c.get))
  | .nil => rfl
  | .cons k2 c rest => by
    by_cases h1 : k2 < k
    · simp [Forest.findRekeyRev, Forest.find, h1, Forest.findRekeyRev_eq conv m k rest]
    · by_cases h2 : k < k2
      · simp [Forest.findRekeyRev, Forest.find, h1, h2]
      · simp [Forest.findRekeyRev, Forest.find, h1, h2]

theorem Tree.rekeyRev_node [Zero W] (conv : V → W) (m : KeyMap U K) (v : V) (p : Link)
    (cs : Forest K V) :
    (Tree.node v p cs).rekeyRev conv m = m.foldl (fun utree e =>
      match Forest.findRekeyRev conv m e.2 cs with
      | none => utree
      | some r => utree.mergeAt e.1 r.1 r.2) Tree.new := by
  simp only [Tree.rekeyRev]

theorem Tree.rekeyRev_fold_wf [Zero W] (conv : V → W) (m : KeyMap U K) (cs : Forest K V)
    (h : ∀ (k : K) (r : Tree U W × W),
      Forest.findRekeyRev conv m k cs = some r → r.1.wf = true) :
    ∀ (es : KeyMap U K) (utree : Tree U W), utree.wf = true →
      (es.foldl (fun utree e =>
        match Forest.findRekeyRev conv m e.2 cs with
        | none => utree
        | some r => utree.mergeAt e.1 r.1 r.2) utree).wf = true
  | [], utree => fun hu => hu
  | e :: es, utree => by
    intro hu
    simp only [List.foldl]
    apply Tree.rekeyRev_fold_wf conv m cs h es
    cases hf : Forest.findRekeyRev conv m e.2 cs with
    | none => exact hu
    | some r => exact Tree.wf_mergeAt _ _ _ _ hu (h e.2 r hf)

mutual
theorem Tree.wf_rekeyRev [Zero W] (conv : V → W) (m : KeyMap U K) :
    ∀ t : Tree K V, (t.rekeyRev conv m).wf = true
  | .node v p cs => by
    simp only [Tree.rekeyRev]
    exact Tree.rekeyRev_fold_wf conv m cs (Forest.wf_findRekeyRev conv m cs) m Tree.new rfl
theorem Forest.wf_findRekeyRev [Zero W] (conv : V → W) (m : KeyMap U K) :
    ∀ (cs : Forest K V) (k : K) (r : Tree U W × W),
      Forest.findRekeyRev conv m k cs = some r → r.1.wf = true
  | .nil, k, r => by simp [Forest.findRekeyRev]
  | .cons k2 c rest, k, r => by
    intro h
    by_cases h1 : k2 < k
    · simp only [Forest.findRekeyRev, h1, if_true] at h
      exact Forest.wf_findRekeyRev conv m rest k r h
    · by_cases h2 : k < k2
      · simp [Forest.findRekeyRev, h1, h2] at h
      · simp only [Forest.findRekeyRev, h1, h2, if_false, Option.some.injEq] at h
        rw [← h]
        exact Tree.wf_rekeyRev conv m c
end

theorem KeyMap.find_none_of_lt {A B : Type} [LinearOrder A] (a : A) :
    ∀ m : KeyMap A B, (∀ e ∈ m, a < e.1) → KeyMap.find a m = none
  | [] => fun _ => rfl
  | (a2, b) :: rest => by
    intro h
    have h1 : a < a2 := h (a2, b) (by simp)
    simp [KeyMap.find, h1, not_lt_of_gt h1]

theorem KeyMap.sorted_cons {A B : Type} [LinearOrder A] {e : A × B} {m : KeyMap A B}
    (h : KeyMap.sorted (e :: m)) : (∀ e2 ∈ m, e.1 < e2.1) ∧ KeyMap.sorted m := by
  simp only [KeyMap.sorted, List.map_cons, List.pairwise_cons, List.mem_map,
    forall_exists_index, and_imp, forall_apply_eq_imp_iff₂] at h
  exact ⟨h.1, h.2⟩

theorem Tree.rekeyRev_fold_find [Zero W] (conv : V → W) (m : KeyMap U K)
    (cs : Forest K V) (u : U) :
    ∀ (es : KeyMap U K) (utree : Tree U W), KeyMap.sorted es →
      (∀ e ∈ es, utree.children.find e.1 = none) →
      (es.foldl (fun utree e =>
        match Forest.findRekeyRev conv m e.2 cs with
        | none => utree
        | some r => utree.mergeAt e.1 r.1 r.2) utree).children.find u
      = (((KeyMap.find u es).bind (fun k => (cs.find k).map (Tree.rekeyRevEntry conv m))).or
          (utree.children.find u))
  | [], utree => by
    intro _ _
    simp [KeyMap.find]
  | (u1, k1) :: es, utree => by
    intro hs hfresh
    obtain ⟨hlt, hs2⟩ := KeyMap.sorted_cons hs
    simp only [List.foldl]
    have hstep : ∀ u2 : U, u2 ≠ u1 →
        (match Forest.findRekeyRev conv m k1 cs with
          | none => utree
          | some r => utree.mergeAt u1 r.1 r.2).children.find u2 = utree.children.find u2 := by
      intro u2 hne
      cases Forest.findRekeyRev conv m k1 cs with
      | none => rfl
      | some r => exact Tree.find_mergeAt_ne _ (Ne.symm hne) _ _
    rw [Tree.rekeyRev_fold_find conv m cs u es _ hs2 (by
      intro e he
      rw [hstep e.1 (ne_of_gt (hlt e he))]
      exact hfresh e (by simp [he]))]
    by_cases h1 : u1 < u
    · simp [KeyMap.find, h1, hstep u (ne_of_gt h1)]
    · by_cases h2 : u < u1
      · have hnone : KeyMap.find u es = none :=
          KeyMap.find_none_of_lt u es (fun e he => lt_trans h2 (hlt e he))
        simp [KeyMap.find, h1, h2, hnone, hstep u (ne_of_lt h2)]
      · have heq : u = u1 := le_antisymm (not_lt.mp h1) (not_lt.mp h2)
        subst heq
        have hnone : KeyMap.find u es = none := KeyMap.find_none_of_lt u es hlt
        have hu : utree.children.find u = none := hfresh (u, k1) (by simp)
        simp only [KeyMap.find, h1, if_false, hnone, Option.none_bind, Option.none_or,
          Option.some_bind, Forest.findRekeyRev_eq]
        cases hf : cs.find k1 with
        | none => simp [hu]
        | some c =>
          simp only [Option.map_some', Option.or_some]
          rw [Tree.find_mergeAt_fresh _ _ _ _ (Tree.wf_rekeyRev conv m c) hu]
          rfl

theorem Tree.rekeyRev_fold_get [Zero W] (conv : V → W) (m : KeyMap U K) (cs : Forest K V) :
    ∀ (es : KeyMap U K) (utree : Tree U W),
      (es.foldl (fun utree e =>
        match Forest.findRekeyRev conv m e.2 cs with
        | none => utree
        | some r => utree.mergeAt e.1 r.1 r.2) utree).get = utree.get
      ∧ (es.foldl (fun utree e =>
        match Forest.findRekeyRev conv m e.2 cs with
        | none => utree
        | some r => utree.mergeAt e.1 r.1 r.2) utree).parent = utree.parent
  | [], utree => ⟨rfl, rfl⟩
  | e :: es, utree => by
    simp only [List.foldl]
    have ih := Tree.rekeyRev_fold_get conv m cs es
      (match Forest.findRekeyRev conv m e.2 cs with
        | none => utree
        | some r => utree.mergeAt e.1 r.1 r.2)
    rw [ih.1, ih.2]
    cases Forest.findRekeyRev conv m e.2 cs with
    | none => exact ⟨rfl, rfl⟩
    | some r => exact Tree.get_mergeAt _ _ _ _

theorem Tree.get_rekeyRev [Zero W] (conv : V → W) (m : KeyMap U K) (t : Tree K V) :
    (t.rekeyRev conv m).get = 0 ∧ (t.rekeyRev conv m).parent = Link.self := by
  cases t with
  | node v p cs =>
    rw [Tree.rekeyRev_node]
    exact Tree.rekeyRev_fold_get conv m cs m Tree.new

theorem Tree.find_rekeyRev [Zero W] (conv : V → W) (t : Tree K V) (m : KeyMap U K)
    (hm : KeyMap.sorted m)
    (u : U) :
    (t.rekeyRev conv m).children.find u
      = (KeyMap.find u m).bind (fun k => (t.children.find k).map (Tree.rekeyRevEntry conv m)) := by
  cases t with
  | node v p cs =>
    rw [Tree.rekeyRev_node, Tree.rekeyRev_fold_find conv m cs u m Tree.new hm (fun _ _ => rfl)]
    have h0 : (Tree.new : Tree U W).children.find u = none := rfl
    rw [h0, Option.or_none]
    rfl

/-- C15 (reverse rekey is a filter).  For every tree `t` and every mapping `m` from new
keys to old keys (a `std::map`, its keys strictly increasing), `t.rekey(m)` has a child
under `u` exactly when `m` has an entry `(u, k)` whose `k` is a child of `t`; that child
has the value of the child of `t` under `k`, as the assignment of line 289 stores it in the
result (`conv`, the identity for the default value type), and, as children, the entries of
the reverse rekey of that child; every other child of `t` is left out, and the function
returns a tree in every case (its root holding the zero value). -/
theorem rekeyRev_filters [Zero W] (conv : V → W) (t : Tree K V) (m : KeyMap U K)
    (hm : KeyMap.sorted m) :
    (∀ u : U, (t.rekeyRev conv m).children.find u
        = (KeyMap.find u m).bind (fun k => (t.children.find k).map
            (fun c => Tree.node (conv c.get) Link.owner (c.rekeyRev conv m).children.shape)))
    ∧ (∀ u : U, (t.rekeyRev conv m).has u = true
        ↔ ∃ k : K, KeyMap.find u m = some k ∧ t.has k = true)
    ∧ (t.rekeyRev conv m).get = 0 := by
  have hfind : ∀ u : U, (t.rekeyRev conv m).children.find u
      = (KeyMap.find u m).bind (fun k => (t.children.find k).map
          (fun c => Tree.node (conv c.get) Link.owner (c.rekeyRev conv m).children.shape)) :=
    fun u => Tree.find_rekeyRev conv t m hm u
  refine ⟨hfind, ?_, (Tree.get_rekeyRev conv m t).1⟩
  intro u
  simp only [Tree.has, Tree.empty, hfind u]
  cases KeyMap.find u m with
  | none => simp
  | some k =>
    cases t.children.find k with
    | none => simp
    | some c => simp

end Rekey

/-! ## Forward rekey and the round trip -/

section RoundTrip

variable {U W : Type} [LinearOrder U]

theorem Forest.keys_above {k : K} :
    ∀ f : Forest K V, f.sorted = true → f.headAbove k = true → ∀ x ∈ f.keys, k < x
  | .nil => by simp [Forest.keys]
  | .cons k2 c rest => by
    intro hs hh x hx
    simp only [Forest.sorted, Bool.and_eq_true] at hs
    have h1 : k < k2 := by simpa [Forest.headAbove] using hh
    simp only [Forest.keys, List.mem_cons] at hx
    rcases hx with hx | hx
    · rw [hx]
      exact h1
    · exact lt_trans h1 (Forest.keys_above rest hs.2 hs.1 x hx)

theorem Forest.mem_keys_of_find {x : K} {c : Tree K V} :
    ∀ f : Forest K V, f.find x = some c → x ∈ f.keys ∧ (x, c) ∈ f.toList
  | .nil => by simp [Forest.find]
  | .cons k c2 rest => by
    intro h
    by_cases h1 : k < x
    · simp only [Forest.find, h1, if_true] at h
      have ih := Forest.mem_keys_of_find rest h
      simp [Forest.keys, Forest.toList, ih.1, ih.2]
    · by_cases h2 : x < k
      · simp [Forest.find, h1, h2] at h
      · have h3 : x = k := le_antisymm (not_lt.mp h1) (not_lt.mp h2)
        simp only [Forest.find, h1, h2, if_false, Option.some.injEq] at h
        simp [Forest.keys, Forest.toList, h3, h]

theorem Forest.find_isSome_of_mem {x : K} :
    ∀ f : Forest K V, f.sorted = true → x ∈ f.keys → (f.find x).isSome = true
  | .nil => by simp [Forest.keys]
  | .cons k c rest => by
    intro hs hx
    simp only [Forest.sorted, Bool.and_eq_true] at hs
    simp only [Forest.keys, List.mem_cons] at hx
    rcases hx with hx | hx
    · simp [Forest.find, hx]
    · have h1 : k < x := Forest.keys_above rest hs.2 hs.1 x hx
      simp [Forest.find, h1, Forest.find_isSome_of_mem rest hs.2 hx]

theorem Forest.ext_of_find :
    ∀ f g : Forest K V, f.sorted = true → g.sorted = true →
      (∀ x : K, f.find x = g.find x) → f = g
  | .nil, .nil => fun _ _ _ => rfl
  | .nil, .cons k c rest => by
    intro _ _ h
    have := h k
    simp [Forest.find] at this
  | .cons k c rest, .nil => by
    intro _ _ h
    have := h k
    simp [Forest.find] at this
  | .cons k c rest, .cons k2 c2 rest2 => by
    intro hf hg h
    simp only [Forest.sorted, Bool.and_eq_true] at hf hg
    have hk : k = k2 := by
      rcases lt_trichotomy k k2 with h1 | h1 | h1
      · have := h k
        simp [Forest.find, h1, not_lt_of_gt h1] at this
      · exact h1
      · have := h k2
        simp [Forest.find, h1, not_lt_of_gt h1] at this
    subst hk
    have hc : c = c2 := by
      have := h k
      simpa [Forest.find] using this
    subst hc
    have hrest : rest = rest2 := by
      apply Forest.ext_of_find rest rest2 hf.2 hg.2
      intro x
      by_cases h1 : k < x
      · have := h x
        simpa [Forest.find, h1] using this
      · rw [Forest.find_none_of_headAbove (not_lt.mp h1) rest hf.1,
          Forest.find_none_of_headAbove (not_lt.mp h1) rest2 hg.1]
    rw [hrest]

theorem Forest.headAbove_shape (k : K) :
    ∀ f : Forest K V, f.shape.headAbove k = f.headAbove k
  | .nil => rfl
  | .cons _ _ _ => rfl

theorem Forest.sorted_shape : ∀ f : Forest K V, f.shape.sorted = f.sorted
  | .nil => rfl
  | .cons k c rest => by
    simp [Forest.shape, Forest.sorted, Forest.headAbove_shape, Forest.sorted_shape rest]

theorem Forest.keys_subset_allKeys : ∀ f : Forest K V, ∀ x ∈ f.keys, x ∈ f.allKeys
  | .nil => by simp [Forest.keys]
  | .cons k c rest => by
    intro x hx
    simp only [Forest.keys, List.mem_cons] at hx
    simp only [Forest.allKeys, List.mem_cons, List.mem_append]
    rcases hx with hx | hx
    · exact Or.inl hx
    · exact Or.inr (Or.inr (Forest.keys_subset_allKeys rest x hx))

theorem Forest.findImage_none (f : KeyMap K U) (u : U) :
    ∀ cs : Forest K V, (∀ k ∈ cs.keys, KeyMap.find k f ≠ some u) →
      cs.findImage f u = none
  | .nil => fun _ => rfl
  | .cons k c rest => by
    intro h
    have h1 : KeyMap.find k f ≠ some u := h k (by simp [Forest.keys])
    simp only [Forest.findImage, h1, if_false]
    exact Forest.findImage_none f u rest (fun k2 hk2 => h k2 (by simp [Forest.keys, hk2]))

theorem Forest.findImage_some (f : KeyMap K U) (u : U) {c : Tree K V} :
    ∀ cs : Forest K V, cs.findImage f u = some c →
      ∃ k ∈ cs.keys, KeyMap.find k f = some u
  | .nil => by simp [Forest.findImage]
  | .cons k c2 rest => by
    intro h
    by_cases h1 : KeyMap.find k f = some u
    · exact ⟨k, by simp [Forest.keys], h1⟩
    · simp only [Forest.findImage, h1, if_false] at h
      obtain ⟨k2, hk2, hf⟩ := Forest.findImage_some f u rest h
      exact ⟨k2, by simp [Forest.keys, hk2], hf⟩

theorem Forest.findImage_of_find (f : KeyMap K U) (hinj : KeyMap.injective f) {u : U}
    {x : K} {c : Tree K V} (hu : KeyMap.find x f = some u) :
    ∀ cs : Forest K V, cs.find x = some c → cs.findImage f u = some c
  | .nil => by simp [Forest.find]
  | .cons k c2 rest => by
    intro h
    by_cases h1 : k < x
    · simp only [Forest.find, h1, if_true] at h
      have hne : KeyMap.find k f ≠ some u := by
        intro hk
        exact absurd (hinj k x u hk hu) (ne_of_lt h1)
      simp only [Forest.findImage, hne, if_false]
      exact Forest.findImage_of_find f hinj hu rest h
    · by_cases h2 : x < k
      · simp [Forest.find, h1, h2] at h
      · have h3 : x = k := le_antisymm (not_lt.mp h1) (not_lt.mp h2)
        simp only [Forest.find, h1, h2, if_false, Option.some.injEq] at h
        subst h3
        simp [Forest.findImage, hu, h]

theorem Tree.get_shape (t : Tree K V) : t.shape.get = t.get := by
  cases t
  rfl

mutual
theorem Tree.rekeyRev_shape [Zero W] (conv : V → W) (m : KeyMap U K) :
    ∀ t : Tree K V, t.shape.rekeyRev conv m = t.rekeyRev conv m
  | .node v p cs => by
    have h : ∀ k : K, Forest.findRekeyRev conv m k cs.shape = Forest.findRekeyRev conv m k cs :=
      fun k => Forest.findRekeyRev_shape conv m cs k
    simp only [Tree.shape, Tree.rekeyRev_node, h]
theorem Forest.findRekeyRev_shape [Zero W] (conv : V → W) (m : KeyMap U K) :
    ∀ (cs : Forest K V) (k : K),
      Forest.findRekeyRev conv m k cs.shape = Forest.findRekeyRev conv m k cs
  | .nil, k => rfl
  | .cons k2 c rest, k => by
    by_cases h1 : k2 < k
    · simp [Forest.shape, Forest.findRekeyRev, h1, Forest.findRekeyRev_shape conv m rest k]
    · by_cases h2 : k < k2
      · simp [Forest.shape, Forest.findRekeyRev, h1, h2]
      · simp [Forest.shape, Forest.findRekeyRev, h1, h2, Tree.rekeyRev_shape conv m c,
          Tree.get_shape]
end

theorem Tree.rekeyRev_children_shape [Zero W] (conv : V → W) (m : KeyMap U K) (a : V) (b : Link)
    (x : Tree K V) : (Tree.node a b x.children.shape).rekeyRev conv m = x.rekeyRev conv m := by
  cases x with
  | node a2 b2 cs =>
    have h := Tree.rekeyRev_shape conv m (Tree.node a2 b2 cs)
    simp only [Tree.shape, Tree.rekeyRev_node] at h
    simp only [Tree.children, Tree.rekeyRev_node, h]

theorem Forest.headAbove_mapValues (g : V → W) (k : K) :
    ∀ f : Forest K V, (f.mapValues g).headAbove k = f.headAbove k
  | .nil => rfl
  | .cons _ _ _ => rfl

theorem Forest.sorted_mapValues (g : V → W) :
    ∀ f : Forest K V, (f.mapValues g).sorted = f.sorted
  | .nil => rfl
  | .cons k c rest => by
    simp [Forest.mapValues, Forest.sorted, Forest.headAbove_mapValues,
      Forest.sorted_mapValues g rest]

theorem Forest.find_mapValues (g : V → W) (x : K) :
    ∀ f : Forest K V, (f.mapValues g).find x = (f.find x).map (Tree.mapValues g)
  | .nil => rfl
  | .cons k c rest => by
    by_cases h1 : k < x
    · simp [Forest.mapValues, Forest.find, h1, Forest.find_mapValues g x rest]
    · by_cases h2 : x < k
      · simp [Forest.mapValues, Forest.find, h1, h2]
      · simp [Forest.mapValues, Forest.find, h1, h2]

mutual
theorem Tree.mapValues_id : ∀ t : Tree K V, t.mapValues id = t
  | .node v p cs => by simp [Tree.mapValues, Forest.mapValues_idAll cs]
theorem Forest.mapValues_idAll : ∀ f : Forest K V, f.mapValues id = f
  | .nil => rfl
  | .cons k c rest => by
    simp [Forest.mapValues, Tree.mapValues_id c, Forest.mapValues_idAll rest]
end

theorem Forest.rekeyLoop_spec [Zero W] (conv : V → W) (f : KeyMap K U)
    (hinj : KeyMap.injective f) :
    ∀ (cs : Forest K V) (utree : Tree U W), cs.sorted = true →
      (∀ k ∈ cs.keys, (KeyMap.find k f).isSome = true) →
      (∀ e ∈ cs.toList, ∃ x : Tree U W, e.2.rekey conv f = some x ∧ x.wf = true) →
      utree.wf = true →
      (∀ k ∈ cs.keys, ∀ u : U, KeyMap.find k f = some u → utree.children.find u = none) →
      ∃ r : Tree U W, Forest.rekeyLoop conv f cs utree = some r ∧ r.wf = true
        ∧ r.get = utree.get ∧ r.parent = utree.parent
        ∧ ∀ u : U, r.children.find u
            = ((cs.findImage f u).map (Tree.rekeyEntry conv f)).or (utree.children.find u)
  | .nil, utree => by
    intro _ _ _ hw _
    exact ⟨utree, rfl, hw, rfl, rfl, fun u => by simp [Forest.findImage]⟩
  | .cons k c rest, utree => by
    intro hs hmap hok hw hfresh
    simp only [Forest.sorted, Bool.and_eq_true] at hs
    obtain ⟨u1, hu1⟩ := Option.isSome_iff_exists.mp (hmap k (by simp [Forest.keys]))
    obtain ⟨x, hx, hxw⟩ := hok (k, c) (by simp [Forest.toList])
    have hlt : ∀ k2 ∈ rest.keys, k < k2 := Forest.keys_above rest hs.2 hs.1
    have hne : ∀ k2 ∈ rest.keys, KeyMap.find k2 f ≠ some u1 := by
      intro k2 hk2 h2
      exact absurd (hinj k k2 u1 hu1 h2) (ne_of_lt (hlt k2 hk2))
    obtain ⟨r, hr, hrw, hrg, hrp, hrf⟩ := Forest.rekeyLoop_spec conv f hinj rest
      (utree.mergeAt u1 x (conv c.get)) hs.2
      (fun k2 hk2 => hmap k2 (by simp [Forest.keys, hk2]))
      (fun e he => hok e (by simp [Forest.toList, he]))
      (Tree.wf_mergeAt _ _ _ _ hw hxw)
      (by
        intro k2 hk2 u hu
        have hu1u : u1 ≠ u := by
          intro h
          rw [← h] at hu
          exact hne k2 hk2 hu
        rw [Tree.find_mergeAt_ne _ hu1u]
        exact hfresh k2 (by simp [Forest.keys, hk2]) u hu)
    refine ⟨r, by simp only [Forest.rekeyLoop, hu1, hx, hr], hrw,
      by rw [hrg, (Tree.get_mergeAt _ _ _ _).1],
      by rw [hrp, (Tree.get_mergeAt _ _ _ _).2], ?_⟩
    intro u
    rw [hrf u]
    by_cases h1 : KeyMap.find k f = some u
    · have hu : u1 = u := by
        rw [hu1] at h1
        exact Option.some.inj h1
      subst hu
      have hnone : rest.findImage f u1 = none := Forest.findImage_none f u1 rest hne
      have hfr : utree.children.find u1 = none :=
        hfresh k (by simp [Forest.keys]) u1 hu1
      simp only [hnone, Option.map_none', Option.none_or, Forest.findImage, hu1, if_true,
        Option.map_some', Option.or_some]
      rw [Tree.find_mergeAt_fresh _ _ _ _ hxw hfr]
      simp [Tree.rekeyEntry, hx]
    · have hu1u : u1 ≠ u := by
        intro h
        rw [← h] at h1
        exact h1 hu1
      simp only [Forest.findImage, h1, if_false]
      rw [Tree.find_mergeAt_ne _ hu1u]

mutual
theorem Tree.rekey_there_and_back [Zero W] (conv : V → W) (f : KeyMap K U)
    (hf : KeyMap.sorted f) (hinj : KeyMap.injective f) :
    ∀ t : Tree K V, t.wf = true → t.mappedBy f →
      ∃ x : Tree U W, t.rekey conv f = some x ∧ x.wf = true
        ∧ (x.rekeyRev id f).shape = .node 0 .self (t.children.mapValues conv).shape
  | .node v p cs => by
    intro hw hmap
    have hcs : cs.wf = true := by simpa [Tree.wf] using hw
    have hmap2 : ∀ k ∈ cs.allKeys, (KeyMap.find k f).isSome = true := by
      simpa [Tree.mappedBy, Tree.allKeys] using hmap
    have H := Forest.rekey_there_and_back_all conv f hf hinj cs hcs hmap2
    have hs := Forest.sorted_of_wf cs hcs
    obtain ⟨x, hx, hxw, hxg, hxp, hxf⟩ := Forest.rekeyLoop_spec conv f hinj cs Tree.new hs
      (fun k hk => hmap2 k (Forest.keys_subset_allKeys cs k hk))
      (fun e he => by
        obtain ⟨y, h1, h2, _⟩ := H e he
        exact ⟨y, h1, h2⟩)
      rfl (fun _ _ _ _ => rfl)
    refine ⟨x, by simpa [Tree.rekey] using hx, hxw, ?_⟩
    have h0 : ∀ u : U, (Tree.new : Tree U W).children.find u = none := fun _ => rfl
    have hrt : ∀ k : K,
        (x.rekeyRev id f).children.shape.find k = (cs.mapValues conv).shape.find k := by
      intro k
      rw [Forest.find_shape, Forest.find_shape, Forest.find_mapValues,
        Tree.find_rekeyRev id x f hf k]
      cases hck : cs.find k with
      | some c =>
        obtain ⟨hkmem, hmem⟩ := Forest.mem_keys_of_find cs hck
        obtain ⟨u, hu⟩ := Option.isSome_iff_exists.mp
          (hmap2 k (Forest.keys_subset_allKeys cs k hkmem))
        obtain ⟨xc, hxc, _, hxcs⟩ := H (k, c) hmem
        have himg := Forest.findImage_of_find f hinj hu cs hck
        have h1 : (Tree.rekeyEntry conv f c).rekeyRev id f = xc.rekeyRev id f := by
          simp only [Tree.rekeyEntry, hxc, Option.getD_some]
          exact Tree.rekeyRev_children_shape id f _ _ xc
        have h2 : (xc.rekeyRev id f).children.shape = (c.children.mapValues conv).shape := by
          rw [← Tree.shape_children, hxcs]
          rfl
        simp only [hu, Option.some_bind, hxf u, himg, Option.map_some', Option.or_some,
          Tree.rekeyRevEntry, h1, Tree.shape, h2, Forest.shape_idemAll]
        cases c
        rfl
      | none =>
        cases hu : KeyMap.find k f with
        | none => rfl
        | some u =>
          have hnone : cs.findImage f u = none := by
            cases hi : cs.findImage f u with
            | none => rfl
            | some c2 =>
              obtain ⟨k2, hk2, hf2⟩ := Forest.findImage_some f u cs hi
              have hkk : k2 = k := hinj k2 k u hf2 hu
              rw [hkk] at hk2
              have hsome := Forest.find_isSome_of_mem cs hs hk2
              rw [hck] at hsome
              exact absurd hsome (by simp)
          simp [hxf u, hnone, h0 u]
    have hsorted : (x.rekeyRev id f).children.shape.sorted = true := by
      rw [Forest.sorted_shape]
      apply Forest.sorted_of_wf
      have h := Tree.wf_rekeyRev id f x
      cases hxr : x.rekeyRev id f with
      | node a b cs2 =>
        rw [hxr] at h
        simpa [Tree.wf, Tree.children] using h
    have hext := Forest.ext_of_find _ _ hsorted
      (by rw [Forest.sorted_shape, Forest.sorted_mapValues]; exact hs) hrt
    have hg := Tree.get_rekeyRev id f x
    cases hxr : x.rekeyRev id f with
    | node a b cs2 =>
      rw [hxr] at hg hext
      simp only [Tree.get, Tree.parent, Tree.children] at hg hext
      simp only [Tree.shape, Tree.children, hg.1, hext]
theorem Forest.rekey_there_and_back_all [Zero W] (conv : V → W) (f : KeyMap K U)
    (hf : KeyMap.sorted f)
    (hinj : KeyMap.injective f) :
    ∀ cs : Forest K V, cs.wf = true →
      (∀ k ∈ cs.allKeys, (KeyMap.find k f).isSome = true) →
      ∀ e ∈ cs.toList, ∃ x : Tree U W, e.2.rekey conv f = some x ∧ x.wf = true
        ∧ (x.rekeyRev id f).shape = .node 0 .self (e.2.children.mapValues conv).shape
  | .nil => by simp [Forest.toList]
  | .cons k c rest => by
    intro hw hmap e he
    simp only [Forest.wf, Bool.and_eq_true] at hw
    simp only [Forest.toList, List.mem_cons] at he
    rcases he with he | he
    · rw [he]
      exact Tree.rekey_there_and_back conv f hf hinj c hw.2.1
        (fun k2 hk2 => hmap k2 (by simp [Forest.allKeys, hk2]))
    · exact Forest.rekey_there_and_back_all conv f hf hinj rest hw.2.2
        (fun k2 hk2 => hmap k2 (by simp [Forest.allKeys, hk2])) e he
end

theorem KeyMap.mem_of_find {A B : Type} [LinearOrder A] {a : A} {b : B} :
    ∀ m : KeyMap A B, KeyMap.find a m = some b → (a, b) ∈ m
  | [] => by simp [KeyMap.find]
  | (a2, b2) :: rest => by
    intro h
    by_cases h1 : a2 < a
    · simp only [KeyMap.find, h1, if_true] at h
      exact List.mem_cons_of_mem _ (KeyMap.mem_of_find rest h)
    · by_cases h2 : a < a2
      · simp [KeyMap.find, h1, h2] at h
      · have h3 : a = a2 := le_antisymm (not_lt.mp h1) (not_lt.mp h2)
        simp only [KeyMap.find, h1, h2, if_false, Option.some.injEq] at h
        simp [h3, h]

theorem KeyMap.injective_of_nodup {A B : Type} [LinearOrder A] (m : KeyMap A B)
    (h : (m.map Prod.snd).Nodup) : KeyMap.injective m := by
  intro a1 a2 b h1 h2
  have e1 := KeyMap.mem_of_find m h1
  have e2 := KeyMap.mem_of_find m h2
  have := List.inj_on_of_nodup_map h e1 e2 rfl
  exact congrArg Prod.fst this

/-- C14, as stated, fails: `rekeyMap` is injective and total over the keys of
`rekeySource`, an integer-valued tree whose root holds 7; the forward rekey followed by the
reverse-form rekey with the same mapping gives a tree whose root holds 0, so it is not
equal to `rekeySource` in structure and values, while it is equal to `rekeySource` with the
root value zeroed. -/
theorem rekey_round_trip_zeroes_root :
    (rekeySource.rekey id rekeyMap).map (fun x => (x.rekeyRev id rekeyMap).shape)
        ≠ some rekeySource.shape
    ∧ (rekeySource.rekey id rekeyMap).map
        (fun x => (x.rekeyRev id rekeyMap : Tree Nat Int).get) = some 0
    ∧ (rekeySource.rekey id rekeyMap).map (fun x => (x.rekeyRev id rekeyMap).shape)
        = some (rekeySource.set 0).shape := by
  decide

/-- C14, amended.  For every tree `t` that satisfies the `std::map` invariant and every
mapping `f` (a `std::map`, its keys strictly increasing) that sends no two keys to the
same new key and is total over all keys occurring in `t`: the forward rekey with `f`
succeeds, and the reverse-form rekey of its result with the same mapping (new key `k`,
old key `f(k)`) is a tree with the same structure, the same keys and the same value at
every node as `t`, except that its root holds the zero value.  The values are those of `t`
as the result type `tree<U>` stores them (`conv`); for the default value type `conv` is
the identity and `t.mapValues conv` is `t`.  The keys of `t` are ordered by the comparator
that the rekeyed-back tree uses, the default one. -/
theorem rekey_round_trip [Zero W] (conv : V → W) (t : Tree K V) (f : KeyMap K U)
    (ht : t.wf = true) (hf : KeyMap.sorted f) (hinj : KeyMap.injective f)
    (htot : t.mappedBy f) :
    (∃ x : Tree U W, t.rekey conv f = some x
      ∧ (x.rekeyRev id f).shape = ((t.mapValues conv).set 0).shape
      ∧ (x.rekeyRev id f).children.shape = (t.mapValues conv).children.shape
      ∧ (x.rekeyRev id f : Tree K W).get = 0)
    ∧ ∀ t0 : Tree K W, t0.mapValues id = t0 := by
  obtain ⟨x, hx, _, hs⟩ := Tree.rekey_there_and_back conv f hf hinj t ht htot
  refine ⟨⟨x, hx, ?_, ?_, (Tree.get_rekeyRev id f x).1⟩, Tree.mapValues_id⟩
  · rw [hs]
    cases t
    rfl
  · rw [← Tree.shape_children, hs]
    cases t
    rfl

/-- Witness of the amended C14: the integer-valued `rekeySource` and `rekeyMap`. -/
theorem rekey_round_trip_witness :
    ∃ x : Tree Char Int, rekeySource.rekey id rekeyMap = some x
      ∧ (x.rekeyRev id rekeyMap).shape = ((rekeySource.mapValues id).set 0).shape
      ∧ (x.rekeyRev id rekeyMap).children.shape = (rekeySource.mapValues id).children.shape
      ∧ (x.rekeyRev id rekeyMap : Tree Nat Int).get = 0 :=
  (rekey_round_trip id rekeySource rekeyMap (by decide) (by decide)
    (KeyMap.injective_of_nodup rekeyMap (by decide))
    (by unfold Tree.mappedBy; decide)).1

/-- Witness of C15: `rekeyMap` read as a mapping from new keys (numbers) to old keys
(characters), applied to the integer-valued `rekeyTarget`; the key `q` of `rekeyTarget` is
left out. -/
theorem rekeyRev_filters_witness :
    (((rekeyTarget.rekeyRev id rekeyMap : Tree Nat Int).has 1 = true
        ↔ ∃ k : Char, KeyMap.find 1 rekeyMap = some k ∧ rekeyTarget.has k = true))
    ∧ (rekeyTarget.rekeyRev id rekeyMap : Tree Nat Int).children.keys = [1, 2]
    ∧ (rekeyTarget.rekeyRev id rekeyMap : Tree Nat Int).children.find 2
        = some (Tree.node 3 Link.owner Forest.nil)
    ∧ (rekeyTarget.rekeyRev id rekeyMap : Tree Nat Int).get = 0 :=
  ⟨(rekeyRev_filters id rekeyTarget rekeyMap (by decide)).2.1 1, by decide,
   ((rekeyRev_filters id rekeyTarget rekeyMap (by decide)).1 2).trans (by decide),
   (rekeyRev_filters id rekeyTarget rekeyMap (by decide)).2.2⟩

end RoundTrip

/-! ## Predicate walk -/

theorem TraceOK.step (k : K) (cpaths rpaths : List (List K))
    (tr1 tr2 : List (List K × Bool)) (b : Bool)
    (hcne : ∀ p ∈ cpaths, p ≠ [])
    (hrhead : ∀ p ∈ rpaths, ∃ (k2 : K) (q : List K), p = k2 :: q ∧ k2 ≠ k)
    (h1s : (tr1.map Prod.fst).Sublist cpaths)
    (h1 : b = true → TraceOK tr1 cpaths)
    (h1f : b = false → tr1 = [])
    (h2 : TraceOK tr2 rpaths) :
    TraceOK ((([k], b) :: tr1.map (fun e => (k :: e.1, e.2))) ++ tr2)
      (([k] :: cpaths.map (fun p => k :: p)) ++ rpaths) := by
  have hmem : ∀ (q : List K) (b2 : Bool),
      (q, b2) ∈ (([k], b) :: tr1.map (fun e => (k :: e.1, e.2))) ++ tr2
        ↔ (q = [k] ∧ b2 = b) ∨ (∃ q2, q = k :: q2 ∧ (q2, b2) ∈ tr1) ∨ (q, b2) ∈ tr2 := by
    intro q b2
    simp only [List.cons_append, List.mem_cons, List.mem_append, List.mem_map, Prod.mk.injEq,
      Prod.exists]
    constructor
    · rintro (⟨h, h2⟩ | ⟨a, b3, hab, h3, h4⟩ | h)
      · exact Or.inl ⟨h, h2⟩
      · exact Or.inr (Or.inl ⟨a, h3.symm, by rw [← h4]; exact hab⟩)
      · exact Or.inr (Or.inr h)
    · rintro (⟨h, h2⟩ | ⟨q2, h3, h4⟩ | h)
      · exact Or.inl ⟨h, h2⟩
      · exact Or.inr (Or.inl ⟨q2, b2, h4, h3.symm, rfl⟩)
      · exact Or.inr (Or.inr h)
  have hpath : ∀ q : List K,
      q ∈ ((([k], b) :: tr1.map (fun e => (k :: e.1, e.2))) ++ tr2).map Prod.fst
        ↔ q = [k] ∨ (∃ q2, q = k :: q2 ∧ q2 ∈ tr1.map Prod.fst) ∨ q ∈ tr2.map Prod.fst := by
    intro q
    simp only [List.mem_map, Prod.exists, exists_and_right, exists_eq_right, hmem]
    constructor
    · rintro ⟨b2, (⟨h, _⟩ | ⟨q2, h3, h4⟩ | h)⟩
      · exact Or.inl h
      · exact Or.inr (Or.inl ⟨q2, h3, b2, h4⟩)
      · exact Or.inr (Or.inr ⟨b2, h⟩)
    · rintro (h | ⟨q2, h3, b2, h4⟩ | ⟨b2, h⟩)
      · exact ⟨b, Or.inl ⟨h, rfl⟩⟩
      · exact ⟨b2, Or.inr (Or.inl ⟨q2, h3, h4⟩)⟩
      · exact ⟨b2, Or.inr (Or.inr h)⟩
  have h1in : ∀ (q : List K) (b2 : Bool), (q, b2) ∈ tr1 → q ∈ cpaths := by
    intro q b2 h
    exact h1s.subset (List.mem_map.mpr ⟨(q, b2), h, rfl⟩)
  have h2in : ∀ (q : List K) (b2 : Bool), (q, b2) ∈ tr2 → q ∈ rpaths := by
    intro q b2 h
    exact h2.1.subset (List.mem_map.mpr ⟨(q, b2), h, rfl⟩)
  have h2head : ∀ (q2 : List K) (b2 : Bool), (k :: q2, b2) ∉ tr2 := by
    intro q2 b2 h
    obtain ⟨k2, q, hq, hk⟩ := hrhead _ (h2in _ _ h)
    simp only [List.cons.injEq] at hq
    exact hk hq.1.symm
  constructor
  · have hmap : ((([k], b) :: tr1.map (fun e => (k :: e.1, e.2))) ++ tr2).map Prod.fst
        = ([k] :: (tr1.map Prod.fst).map (fun p => k :: p)) ++ tr2.map Prod.fst := by
      simp [List.map_map, Function.comp_def]
    rw [hmap]
    exact List.Sublist.append (List.Sublist.cons₂ _ (h1s.map _)) h2.1
  · intro p hp
    simp only [List.cons_append, List.mem_cons, List.mem_append, List.mem_map] at hp
    rcases hp with hp | ⟨p2, hp2, hp⟩ | hp
    · -- the entry under `k` itself
      subst hp
      rw [hpath]
      constructor
      · intro _ q r hq hr hqr
        exfalso
        have hlen := congrArg List.length hqr
        simp only [List.length_append, List.length_singleton] at hlen
        have := List.length_pos.mpr hq
        have := List.length_pos.mpr hr
        omega
      · intro _
        exact Or.inl rfl
    · -- an entry below `k`
      subst hp
      have hp2ne : p2 ≠ [] := hcne p2 hp2
      rw [hpath]
      constructor
      · rintro (h | ⟨q2, h3, h4⟩ | h)
        · simp only [List.cons.injEq, true_and] at h
          exact absurd h hp2ne
        · simp only [List.cons.injEq, true_and] at h3
          subst h3
          have hb : b = true := by
            cases hb : b with
            | true => rfl
            | false =>
              rw [h1f hb] at h4
              simp at h4
          have hin := ((h1 hb).2 p2 hp2).mp h4
          intro q r hq hr hqr
          cases q with
          | nil => exact absurd rfl hq
          | cons k2 q2 =>
            simp only [List.cons_append, List.cons.injEq] at hqr
            obtain ⟨hk, hqr⟩ := hqr
            subst hk
            rw [hmem]
            by_cases hq2 : q2 = []
            · exact Or.inl ⟨by rw [hq2], hb.symm⟩
            · exact Or.inr (Or.inl ⟨q2, rfl, hin q2 r hq2 hr hqr⟩)
        · obtain ⟨b2, hb2⟩ : ∃ b2, (k :: p2, b2) ∈ tr2 := by
            obtain ⟨e, he, hfst⟩ := List.mem_map.mp h
            exact ⟨e.2, by rw [← hfst]; exact he⟩
          exact absurd hb2 (h2head _ _)
      · intro hall
        have hk : ([k], true) ∈ (([k], b) :: tr1.map (fun e => (k :: e.1, e.2))) ++ tr2 :=
          hall [k] p2 (by simp) hp2ne rfl
        have hb : b = true := by
          rcases (hmem _ _).mp hk with ⟨_, h⟩ | ⟨q2, h3, h4⟩ | h
          · exact h.symm
          · simp only [List.cons.injEq, true_and] at h3
            rw [← h3] at h4
            exact absurd (h1in _ _ h4) (fun hc => hcne [] hc rfl)
          · exact absurd h (h2head _ _)
        refine Or.inr (Or.inl ⟨p2, rfl, ((h1 hb).2 p2 hp2).mpr ?_⟩)
        intro q r hq hr hqr
        have h := hall (k :: q) r (by simp) hr (by simp [hqr])
        rcases (hmem _ _).mp h with ⟨h5, _⟩ | ⟨q2, h3, h4⟩ | h5
        · simp only [List.cons.injEq, true_and] at h5
          exact absurd h5 hq
        · simp only [List.cons.injEq, true_and] at h3
          rw [h3]
          exact h4
        · exact absurd h5 (h2head _ _)
    · -- an entry of a later sibling
      obtain ⟨k2, p2, hpe, hk2⟩ := hrhead p hp
      subst hpe
      rw [hpath]
      constructor
      · rintro (h | ⟨q2, h3, _⟩ | h)
        · simp only [List.cons.injEq] at h
          exact absurd h.1 hk2
        · simp only [List.cons.injEq] at h3
          exact absurd h3.1 hk2
        · have hin := (h2.2 _ hp).mp h
          intro q r hq hr hqr
          rw [hmem]
          exact Or.inr (Or.inr (hin q r hq hr hqr))
      · intro hall
        refine Or.inr (Or.inr ((h2.2 _ hp).mpr ?_))
        intro q r hq hr hqr
        have h := hall q r hq hr hqr
        cases q with
        | nil => exact absurd rfl hq
        | cons k3 q3 =>
          simp only [List.cons_append, List.cons.injEq] at hqr
          rcases (hmem _ _).mp h with ⟨h5, _⟩ | ⟨q2, h3, _⟩ | h5
          · simp only [List.cons.injEq] at h5
            exact absurd (hqr.1.symm.trans h5.1) hk2
          · simp only [List.cons.injEq] at h3
            exact absurd (hqr.1.symm.trans h3.1) hk2
          · exact h5

theorem Forest.entryPaths_head :
    ∀ cs : Forest K V, ∀ p ∈ cs.entryPaths, ∃ (k2 : K) (q : List K), p = k2 :: q ∧ k2 ∈ cs.keys
  | .nil => by simp [Forest.entryPaths]
  | .cons k c rest => by
    intro p hp
    simp only [Forest.entryPaths, List.cons_append, List.mem_cons, List.mem_append,
      List.mem_map] at hp
    rcases hp with hp | ⟨p2, _, hp⟩ | hp
    · exact ⟨k, [], hp, by simp [Forest.keys]⟩
    · exact ⟨k, p2, hp.symm, by simp [Forest.keys]⟩
    · obtain ⟨k2, q, hq, hk2⟩ := Forest.entryPaths_head rest p hp
      exact ⟨k2, q, hq, by simp [Forest.keys, hk2]⟩

theorem Tree.entryPaths_ne_nil (t : Tree K V) : ∀ p ∈ t.entryPaths, p ≠ [] := by
  intro p hp
  cases t with
  | node v l cs =>
    obtain ⟨k2, q, hq, _⟩ := Forest.entryPaths_head cs p (by simpa [Tree.entryPaths] using hp)
    rw [hq]
    simp

mutual
theorem Tree.walk_trace {σ : Type} (pred : σ → List K → Tree K V → K → Verdict × σ) :
    ∀ (t : Tree K V) (pre : List K) (s : σ), t.wf = true →
      TraceOK (t.walk pred pre s).trace t.entryPaths
  | .node v p cs, pre, s => by
    intro h
    simp only [Tree.wf] at h
    simp only [Tree.walk, Tree.entryPaths]
    exact Forest.walkLoop_trace pred cs pre _ s h
theorem Forest.walkLoop_trace {σ : Type} (pred : σ → List K → Tree K V → K → Verdict × σ) :
    ∀ (cs : Forest K V) (pre : List K) (self : Tree K V) (s : σ), cs.wf = true →
      TraceOK (cs.walkLoop pred pre self s).trace cs.entryPaths
  | .nil, pre, self, s => by
    intro _
    exact ⟨List.Sublist.slnil, fun p hp => by simp [Forest.entryPaths] at hp⟩
  | .cons k c rest, pre, self, s => by
    intro h
    simp only [Forest.wf, Bool.and_eq_true] at h
    have hkeys : ∀ k2 ∈ rest.keys, k < k2 :=
      Forest.keys_above rest (Forest.sorted_of_wf rest h.2.2) h.1
    have hrhead : ∀ p ∈ rest.entryPaths, ∃ (k2 : K) (q : List K), p = k2 :: q ∧ k2 ≠ k := by
      intro p hp
      obtain ⟨k2, q, hq, hk2⟩ := Forest.entryPaths_head rest p hp
      exact ⟨k2, q, hq, ne_of_gt (hkeys k2 hk2)⟩
    have hcne := Tree.entryPaths_ne_nil c
    cases hv : pred s pre self k with
    | mk vd s1 =>
      cases vd with
      | descend =>
        have ih1 := Tree.walk_trace pred c (pre ++ [k]) s1 h.2.1
        have ih2 := Forest.walkLoop_trace pred rest pre
          (self.modifyChild k (fun _ => (c.walk pred (pre ++ [k]) s1).tree))
          (c.walk pred (pre ++ [k]) s1).state h.2.2
        simp only [Forest.walkLoop, hv, Forest.entryPaths]
        exact TraceOK.step k _ _ _ _ true hcne hrhead ih1.1 (fun _ => ih1)
          (fun hb => by simp at hb) ih2
      | skip =>
        have ih2 := Forest.walkLoop_trace pred rest pre self s1 h.2.2
        simp only [Forest.walkLoop, hv, Forest.entryPaths]
        exact TraceOK.step k _ _ [] _ false hcne hrhead (List.nil_sublist _)
          (fun hb => by simp at hb) (fun _ => rfl) ih2
      | eraseSkip =>
        have ih2 := Forest.walkLoop_trace pred rest pre (self.erase k) s1 h.2.2
        simp only [Forest.walkLoop, hv, Forest.entryPaths]
        exact TraceOK.step k _ _ [] _ false hcne hrhead (List.nil_sublist _)
          (fun hb => by simp at hb) (fun _ => rfl) ih2
end

mutual
theorem Tree.nodup_entryPaths : ∀ t : Tree K V, t.wf = true → t.entryPaths.Nodup
  | .node v p cs => by
    intro h
    simp only [Tree.wf] at h
    simp only [Tree.entryPaths]
    exact Forest.nodup_entryPathsAll cs h
theorem Forest.nodup_entryPathsAll : ∀ cs : Forest K V, cs.wf = true → cs.entryPaths.Nodup
  | .nil => by simp [Forest.entryPaths]
  | .cons k c rest => by
    intro h
    simp only [Forest.wf, Bool.and_eq_true] at h
    have hkeys : ∀ k2 ∈ rest.keys, k < k2 :=
      Forest.keys_above rest (Forest.sorted_of_wf rest h.2.2) h.1
    have hrhead : ∀ p ∈ rest.entryPaths, ∀ q : List K, p ≠ k :: q := by
      intro p hp q hpq
      obtain ⟨k2, q2, hq, hk2⟩ := Forest.entryPaths_head rest p hp
      rw [hq] at hpq
      simp only [List.cons.injEq] at hpq
      exact absurd hpq.1 (ne_of_gt (hkeys k2 hk2))
    have hc := Tree.nodup_entryPaths c h.2.1
    have hr := Forest.nodup_entryPathsAll rest h.2.2
    have hcne := Tree.entryPaths_ne_nil c
    simp only [Forest.entryPaths, List.cons_append, List.nodup_cons, List.mem_append,
      List.mem_map, not_or, not_exists, not_and]
    refine ⟨⟨?_, ?_⟩, ?_⟩
    · intro p2 hp2 h2
      simp only [List.cons.injEq, true_and] at h2
      exact hcne p2 hp2 h2
    · intro h2
      exact hrhead _ h2 [] rfl
    · rw [List.nodup_append]
      refine ⟨hc.map (fun a b hab => by simpa using hab), hr, ?_⟩
      intro p hp1 hp2
      obtain ⟨p2, _, hp⟩ := List.mem_map.mp hp1
      exact hrhead p hp2 p2 hp.symm
end

theorem Forest.mem_keys_of_mem_toList {x : K} {c : Tree K V} :
    ∀ g : Forest K V, (x, c) ∈ g.toList → x ∈ g.keys
  | .nil => by simp [Forest.toList]
  | .cons k3 c3 rest3 => by
    intro hg
    simp only [Forest.toList, List.mem_cons, Prod.mk.injEq] at hg
    rcases hg with ⟨h1, _⟩ | hg
    · simp [Forest.keys, h1]
    · simp [Forest.keys, Forest.mem_keys_of_mem_toList rest3 hg]

theorem Forest.walkLoop_trace_ne_nil {σ : Type}
    (pred : σ → List K → Tree K V → K → Verdict × σ) :
    ∀ (cs : Forest K V) (pre : List K) (self : Tree K V) (s : σ),
      ∀ e ∈ (cs.walkLoop pred pre self s).trace, e.1 ≠ []
  | .nil, pre, self, s => by simp [Forest.walkLoop]
  | .cons k c rest, pre, self, s => by
    intro e he
    cases hv : pred s pre self k with
    | mk vd s1 =>
      cases vd with
      | descend =>
        simp only [Forest.walkLoop, hv, List.cons_append, List.mem_cons, List.mem_append,
          List.mem_map] at he
        rcases he with he | ⟨e2, _, he⟩ | he
        · rw [he]
          simp
        · rw [← he]
          simp
        · exact Forest.walkLoop_trace_ne_nil pred rest pre _ _ e he
      | skip =>
        simp only [Forest.walkLoop, hv, List.mem_cons] at he
        rcases he with he | he
        · rw [he]
          simp
        · exact Forest.walkLoop_trace_ne_nil pred rest pre _ _ e he
      | eraseSkip =>
        simp only [Forest.walkLoop, hv, List.mem_cons] at he
        rcases he with he | he
        · rw [he]
          simp
        · exact Forest.walkLoop_trace_ne_nil pred rest pre _ _ e he

theorem Tree.walk_trace_ne_nil {σ : Type}
    (pred : σ → List K → Tree K V → K → Verdict × σ) (t : Tree K V) (pre : List K) (s : σ) :
    ∀ e ∈ (t.walk pred pre s).trace, e.1 ≠ [] := by
  cases t with
  | node v p cs =>
    simp only [Tree.walk]
    exact Forest.walkLoop_trace_ne_nil pred cs pre _ s

theorem Forest.walkLoop_top {σ : Type} (pred : σ → List K → Tree K V → K → Verdict × σ) :
    ∀ (cs : Forest K V) (pre : List K) (self : Tree K V) (s : σ),
      (((cs.walkLoop pred pre self s).trace.filter (fun e => e.1.length = 1)).map Prod.fst)
        = cs.keys.map (fun k => [k])
  | .nil, pre, self, s => by simp [Forest.walkLoop, Forest.keys]
  | .cons k c rest, pre, self, s => by
    cases hv : pred s pre self k with
    | mk vd s1 =>
      cases vd with
      | descend =>
        have hne := Tree.walk_trace_ne_nil pred c (pre ++ [k]) s1
        have hlift : ((c.walk pred (pre ++ [k]) s1).trace.map
            (fun e => (k :: e.1, e.2))).filter (fun e => e.1.length = 1) = [] := by
          rw [List.filter_eq_nil_iff]
          intro e he
          obtain ⟨e2, he2, he3⟩ := List.mem_map.mp he
          rw [← he3]
          simpa using hne e2 he2
        simp only [Forest.walkLoop, hv, List.cons_append, List.filter_cons, List.filter_append,
          hlift, List.length_singleton, decide_True, if_true, List.nil_append, List.map_cons,
          Forest.keys]
        rw [Forest.walkLoop_top pred rest pre _ _]
      | skip =>
        simp only [Forest.walkLoop, hv, List.filter_cons, List.length_singleton, decide_True,
          if_true, List.map_cons, Forest.keys]
        rw [Forest.walkLoop_top pred rest pre _ _]
      | eraseSkip =>
        simp only [Forest.walkLoop, hv, List.filter_cons, List.length_singleton, decide_True,
          if_true, List.map_cons, Forest.keys]
        rw [Forest.walkLoop_top pred rest pre _ _]

theorem Forest.modify_const_of_find {x : K} {c : Tree K V} :
    ∀ f : Forest K V, f.find x = some c → f.modify x (fun _ => c) = f
  | .nil => by simp [Forest.find]
  | .cons k c2 rest => by
    intro h
    by_cases h1 : k < x
    · simp only [Forest.find, h1, if_true] at h
      simp [Forest.modify, h1, Forest.modify_const_of_find rest h]
    · by_cases h2 : x < k
      · simp [Forest.find, h1, h2] at h
      · simp only [Forest.find, h1, h2, if_false, Option.some.injEq] at h
        simp [Forest.modify, h1, h2, h]

theorem Forest.find_of_mem_toList {x : K} {c : Tree K V} :
    ∀ f : Forest K V, f.sorted = true → (x, c) ∈ f.toList → f.find x = some c
  | .nil => by simp [Forest.toList]
  | .cons k c2 rest => by
    intro hs hm
    simp only [Forest.sorted, Bool.and_eq_true] at hs
    simp only [Forest.toList, List.mem_cons, Prod.mk.injEq] at hm
    rcases hm with ⟨hk, hc⟩ | hm
    · simp [Forest.find, hk, hc]
    · have hx : x ∈ rest.keys := Forest.mem_keys_of_mem_toList rest hm
      have h1 : k < x := Forest.keys_above rest hs.2 hs.1 x hx
      simp [Forest.find, h1, Forest.find_of_mem_toList rest hs.2 hm]

mutual
theorem Tree.walk_tree_eq {σ : Type} (pred : σ → List K → Tree K V → K → Verdict × σ)
    (hp : ∀ (s : σ) (pre : List K) (self : Tree K V) (k : K),
      (pred s pre self k).1 ≠ Verdict.eraseSkip) :
    ∀ (t : Tree K V) (pre : List K) (s : σ), t.wf = true → (t.walk pred pre s).tree = t
  | .node v p cs, pre, s => by
    intro h
    simp only [Tree.wf] at h
    simp only [Tree.walk]
    exact Forest.walkLoop_tree_eq pred hp cs pre _ s h
      (fun e he => Forest.find_of_mem_toList cs (Forest.sorted_of_wf cs h) he)
theorem Forest.walkLoop_tree_eq {σ : Type}
    (pred : σ → List K → Tree K V → K → Verdict × σ)
    (hp : ∀ (s : σ) (pre : List K) (self : Tree K V) (k : K),
      (pred s pre self k).1 ≠ Verdict.eraseSkip) :
    ∀ (cs : Forest K V) (pre : List K) (self : Tree K V) (s : σ), cs.wf = true →
      (∀ e ∈ cs.toList, self.children.find e.1 = some e.2) →
      (cs.walkLoop pred pre self s).tree = self
  | .nil, pre, self, s => fun _ _ => rfl
  | .cons k c rest, pre, self, s => by
    intro h hfind
    simp only [Forest.wf, Bool.and_eq_true] at h
    have hrest : ∀ e ∈ rest.toList, self.children.find e.1 = some e.2 :=
      fun e he => hfind e (by simp [Forest.toList, he])
    cases hv : pred s pre self k with
    | mk vd s1 =>
      cases vd with
      | descend =>
        have h1 := Tree.walk_tree_eq pred hp c (pre ++ [k]) s1 h.2.1
        have h2 : self.modifyChild k (fun _ => c) = self := by
          cases self with
          | node v0 p0 cs0 =>
            simp only [Tree.modifyChild]
            rw [Forest.modify_const_of_find cs0 (hfind (k, c) (by simp [Forest.toList]))]
        simp only [Forest.walkLoop, hv, h1, h2]
        exact Forest.walkLoop_tree_eq pred hp rest pre self _ h.2.2 hrest
      | skip =>
        simp only [Forest.walkLoop, hv]
        exact Forest.walkLoop_tree_eq pred hp rest pre self _ h.2.2 hrest
      | eraseSkip =>
        have := hp s pre self k
        rw [hv] at this
        exact absurd rfl this
end

theorem Forest.walkLoop_eraser {σ : Type} :
    ∀ (cs : Forest K V) (pre : List K) (self : Tree K V) (s : σ), self.children = cs →
      (cs.walkLoop eraser pre self s).trace = cs.keys.map (fun k => ([k], false))
      ∧ (cs.walkLoop eraser pre self s).tree = .node self.get self.parent .nil
      ∧ (cs.walkLoop eraser pre self s).state = s
  | .nil, pre, self, s => by
    intro h
    cases self
    simp only [Tree.children] at h
    simp [Forest.walkLoop, Forest.keys, h, Tree.get, Tree.parent]
  | .cons k c rest, pre, self, s => by
    intro h
    have he : self.erase k = .node self.get self.parent rest := by
      cases self
      simp only [Tree.children] at h
      simp [Tree.erase, h, Forest.find, Forest.mapErase, Tree.get, Tree.parent]
    have ih := Forest.walkLoop_eraser rest pre (self.erase k) s (by rw [he]; rfl)
    simp only [Forest.walkLoop, eraser, Forest.keys, List.map_cons]
    refine ⟨by rw [ih.1], ?_, ih.2.2⟩
    rw [ih.2.1, he]
    rfl

/-- C17 (walk mutation safety).  Walking a node with the predicate that erases the entry it
is handed and returns `false` calls the predicate exactly once for each child the node had,
in key order, and ends with the node having no children (its value and `parent` kept).
For every predicate, whichever entries it erases, the calls made on the children of the
walked node are exactly one per child the node had before the walk, in key order: no
remaining sibling is skipped or called on twice. -/
theorem walk_erasing_current {σ : Type} (t : Tree K V) (pre : List K) (s : σ) :
    (t.walk eraser pre s).trace = t.children.keys.map (fun k => ([k], false))
    ∧ (t.walk eraser pre s).tree.children = Forest.nil
    ∧ (t.walk eraser pre s).tree.get = t.get
    ∧ (t.walk eraser pre s).tree.parent = t.parent
    ∧ (∀ pred : σ → List K → Tree K V → K → Verdict × σ,
        ((t.walk pred pre s).trace.filter (fun e => e.1.length = 1)).map Prod.fst
          = t.children.keys.map (fun k => [k])) := by
  cases t with
  | node v p cs =>
    have h := Forest.walkLoop_eraser cs pre (Tree.node v p cs) s rfl
    refine ⟨h.1, ?_, ?_, ?_, ?_⟩
    · simp only [Tree.walk, h.2.1]
      rfl
    · simp only [Tree.walk, h.2.1]
      rfl
    · simp only [Tree.walk, h.2.1]
      rfl
    · intro pred
      exact Forest.walkLoop_top pred cs pre _ s

/-! ## CSV export -/

theorem concatLines_append : ∀ a b : List String,
    concatLines (a ++ b) = concatLines a ++ concatLines b
  | [], b => by simp [concatLines]
  | l :: ls, b => by simp [concatLines, concatLines_append ls b, String.append_assoc]

theorem concatLines_lift (showK : K → String) (showV : V → String) (pre : String) (k : K) :
    ∀ es : List (List K × V),
      concatLines ((es.map (fun e => (k :: e.1, e.2))).map (csvLine showK showV pre))
        = concatLines (es.map (csvLine showK showV (pre ++ "/" ++ showK k)))
  | [] => rfl
  | e :: es => by
    simp only [List.map_cons, concatLines, concatLines_lift showK showV pre k es]
    simp [csvLine, pathText, String.append_assoc]

mutual
theorem Tree.csv_eq (showK : K → String) (showV : V → String) :
    ∀ (t : Tree K V) (out pre : String) (depth : Nat),
      t.csv showK showV out pre depth
        = out ++ concatLines (t.entryValues.map (csvLine showK showV pre))
  | .node v p cs, out, pre, depth => by
    simp only [Tree.csv, Tree.entryValues]
    exact Forest.csvLoop_eq showK showV cs out pre depth
theorem Forest.csvLoop_eq (showK : K → String) (showV : V → String) :
    ∀ (cs : Forest K V) (out pre : String) (depth : Nat),
      Forest.csvLoop showK showV out pre depth cs
        = out ++ concatLines (cs.entryValues.map (csvLine showK showV pre))
  | .nil, out, pre, depth => by simp [Forest.csvLoop, Forest.entryValues, concatLines]
  | .cons k c rest, out, pre, depth => by
    have hcons : (Forest.cons k c rest).entryValues
        = ([k], c.get) :: ((c.entryValues.map (fun e => (k :: e.1, e.2)))
            ++ rest.entryValues) := rfl
    rw [hcons]
    simp only [Forest.csvLoop, List.map_cons, List.map_append, concatLines,
      concatLines_append]
    rw [Tree.csv_eq showK showV c, Forest.csvLoop_eq showK showV rest,
      concatLines_lift showK showV pre k]
    simp [csvLine, pathText, String.append_assoc]
end

mutual
theorem Tree.entryValues_paths : ∀ t : Tree K V, t.entryValues.map Prod.fst = t.entryPaths
  | .node v p cs => by
    simp only [Tree.entryValues, Tree.entryPaths]
    exact Forest.entryValues_pathsAll cs
theorem Forest.entryValues_pathsAll :
    ∀ cs : Forest K V, cs.entryValues.map Prod.fst = cs.entryPaths
  | .nil => rfl
  | .cons k c rest => by
    have hcons : (Forest.cons k c rest).entryValues
        = ([k], c.get) :: ((c.entryValues.map (fun e => (k :: e.1, e.2)))
            ++ rest.entryValues) := rfl
    have hcons2 : (Forest.cons k c rest).entryPaths
        = [k] :: ((c.entryPaths.map (fun p => k :: p)) ++ rest.entryPaths) := rfl
    rw [hcons, hcons2]
    simp only [List.map_cons, List.map_append, List.map_map,
      Forest.entryValues_pathsAll rest]
    rw [← Tree.entryValues_paths c, List.map_map]
    rfl
end

mutual
theorem Tree.mem_entryValues : ∀ t : Tree K V, t.wf = true → ∀ (p : List K) (v : V),
    ((p, v) ∈ t.entryValues ↔ p ≠ [] ∧ (t.nodeAt p).map Tree.get = some v)
  | .node x l cs => by
    intro h p v
    simp only [Tree.wf] at h
    simp only [Tree.entryValues]
    rw [Forest.mem_entryValuesAll cs h p v]
    constructor
    · rintro ⟨k, ks, c, hp, hf, hn⟩
      subst hp
      refine ⟨by simp, ?_⟩
      simp only [Tree.nodeAt, Tree.children, hf]
      exact hn
    · rintro ⟨hp, hn⟩
      cases p with
      | nil => exact absurd rfl hp
      | cons k ks =>
        simp only [Tree.nodeAt, Tree.children] at hn
        cases hf : cs.find k with
        | none => simp [hf] at hn
        | some c =>
          simp only [hf] at hn
          exact ⟨k, ks, c, rfl, hf, hn⟩
theorem Forest.mem_entryValuesAll : ∀ cs : Forest K V, cs.wf = true →
    ∀ (p : List K) (v : V), ((p, v) ∈ cs.entryValues
      ↔ ∃ (k : K) (ks : List K) (c : Tree K V),
          p = k :: ks ∧ cs.find k = some c ∧ (c.nodeAt ks).map Tree.get = some v)
  | .nil => by
    intro _ p v
    simp [Forest.entryValues, Forest.find]
  | .cons k c rest => by
    intro h p v
    simp only [Forest.wf, Bool.and_eq_true] at h
    have hkeys : ∀ k2 ∈ rest.keys, k < k2 :=
      Forest.keys_above rest (Forest.sorted_of_wf rest h.2.2) h.1
    have hcons : (Forest.cons k c rest).entryValues
        = ([k], c.get) :: ((c.entryValues.map (fun e => (k :: e.1, e.2)))
            ++ rest.entryValues) := rfl
    rw [hcons]
    simp only [List.mem_cons, List.mem_append, List.mem_map, Prod.mk.injEq, Prod.exists]
    constructor
    · rintro (⟨hp, hv⟩ | ⟨p2, v2, he2, hp, hv⟩ | he)
      · exact ⟨k, [], c, hp, by simp [Forest.find], by simp [Tree.nodeAt, hv]⟩
      · have := (Tree.mem_entryValues c h.2.1 p2 v2).mp he2
        exact ⟨k, p2, c, hp.symm, by simp [Forest.find], by rw [← hv]; exact this.2⟩
      · obtain ⟨k2, ks, c2, hp, hf, hn⟩ := (Forest.mem_entryValuesAll rest h.2.2 p v).mp he
        have hlt : k < k2 := hkeys k2 (Forest.mem_keys_of_find rest hf).1
        exact ⟨k2, ks, c2, hp, by simp [Forest.find, hlt, hf], hn⟩
    · rintro ⟨k2, ks, c2, hp, hf, hn⟩
      by_cases h1 : k < k2
      · simp only [Forest.find, h1, if_true] at hf
        exact Or.inr (Or.inr ((Forest.mem_entryValuesAll rest h.2.2 p v).mpr
          ⟨k2, ks, c2, hp, hf, hn⟩))
      · by_cases h2 : k2 < k
        · simp [Forest.find, h1, h2] at hf
        · have h3 : k2 = k := le_antisymm (not_lt.mp h1) (not_lt.mp h2)
          simp only [Forest.find, h1, h2, if_false, Option.some.injEq] at hf
          subst h3 hf
          cases ks with
          | nil =>
            simp only [Tree.nodeAt, Option.map_some', Option.some.injEq] at hn
            exact Or.inl ⟨hp, hn.symm⟩
          | cons k3 ks3 =>
            have := (Tree.mem_entryValues c h.2.1 (k3 :: ks3) v).mpr ⟨by simp, hn⟩
            exact Or.inr (Or.inl ⟨k3 :: ks3, v, this, hp.symm, rfl⟩)
end

/-- C18 (CSV export).  `as_csv()` is the concatenation of one line per node below the export
root, in depth-first pre-order with siblings in key order; the line of the node reached by
the keys `k1, ..., kn` is `/k1/.../kn,<value>` and a newline; `csv` appends the same lines
to the stream, each path preceded by the given prefix.  On a tree that satisfies the
`std::map` invariant the listed paths are distinct and are exactly the non-empty paths that
lead to a node, each listed with the value of that node. -/
theorem csv_lines (showK : K → String) (showV : V → String) (t : Tree K V)
    (out pre : String) (depth : Nat) :
    t.as_csv showK showV
        = concatLines (t.entryValues.map
            (fun e => pathText showK e.1 ++ "," ++ showV e.2 ++ "\n"))
    ∧ t.csv showK showV out pre depth
        = out ++ concatLines (t.entryValues.map
            (fun e => pre ++ pathText showK e.1 ++ "," ++ showV e.2 ++ "\n"))
    ∧ t.entryValues.map Prod.fst = t.entryPaths
    ∧ (∀ (k : K) (ks : List K), pathText showK (k :: ks) = "/" ++ showK k ++ pathText showK ks)
    ∧ pathText showK [] = ""
    ∧ (t.wf = true →
        (t.entryValues.map Prod.fst).Nodup
        ∧ ∀ (p : List K) (v : V),
            ((p, v) ∈ t.entryValues ↔ p ≠ [] ∧ (t.nodeAt p).map Tree.get = some v))
    ∧ getdownExample.as_csv id tally = "/a,ii\n/a/b,iii\n" := by
  refine ⟨?_, ?_, Tree.entryValues_paths t, fun _ _ => rfl, rfl, ?_, by decide⟩
  · rw [Tree.as_csv, Tree.csv_eq, String.empty_append]
    rfl
  · rw [Tree.csv_eq]
    rfl
  · intro h
    refine ⟨?_, Tree.mem_entryValues t h⟩
    rw [Tree.entryValues_paths]
    exact Tree.nodup_entryPaths t h

/-- Witness of C18: `sample` written with the tally rendering of keys and values. -/
theorem csv_lines_witness :
    (sample.entryValues.map Prod.fst).Nodup
    ∧ (([1, 9], (2 : Int)) ∈ sample.entryValues
        ↔ ([1, 9] : List Nat) ≠ [] ∧ (sample.nodeAt [1, 9]).map Tree.get = some 2) :=
  ⟨((csv_lines (fun k : Nat => tally k) tally sample "" "" 0).2.2.2.2.2.1 (by decide)).1,
   ((csv_lines (fun k : Nat => tally k) tally sample "" "" 0).2.2.2.2.2.1 (by decide)).2
      [1, 9] 2⟩

/-! ## Upward propagation -/

theorem Forest.keys_modify (k : K) (g : Tree K V → Tree K V) :
    ∀ f : Forest K V, (f.modify k g).keys = f.keys
  | .nil => rfl
  | .cons k2 c rest => by
    by_cases h1 : k2 < k
    · simp [Forest.modify, h1, Forest.keys, Forest.keys_modify k g rest]
    · by_cases h2 : k < k2
      · simp [Forest.modify, h1, h2]
      · simp [Forest.modify, h1, h2, Forest.keys]

theorem Tree.Repainted.same (v : V) (S : List K → Prop) (r : Tree K V)
    (h : ∀ q : List K, ¬ S q) : Tree.Repainted v S r r := by
  intro q
  exact ⟨fun hq => hq, fun m hm => ⟨m, hm, rfl, rfl, fun hs => absurd hs (h q), fun _ => rfl⟩⟩

theorem Tree.Repainted.congr {v : V} {S S2 : List K → Prop} {r r2 : Tree K V}
    (h : Tree.Repainted v S r r2) (hs : ∀ q : List K, S q ↔ S2 q) :
    Tree.Repainted v S2 r r2 := by
  intro q
  refine ⟨(h q).1, ?_⟩
  intro m hm
  obtain ⟨m2, h1, h2, h3, h4, h5⟩ := (h q).2 m hm
  exact ⟨m2, h1, h2, h3, fun hq => h4 ((hs q).mpr hq), fun hq => h5 (fun hq2 => hq ((hs q).mp hq2))⟩

theorem Tree.Repainted.trans {v : V} {S1 S2 : List K → Prop} {r r1 r2 : Tree K V}
    (h1 : Tree.Repainted v S1 r r1) (h2 : Tree.Repainted v S2 r1 r2) :
    Tree.Repainted v (fun q => S1 q ∨ S2 q) r r2 := by
  intro q
  refine ⟨fun hq => (h2 q).1 ((h1 q).1 hq), ?_⟩
  intro m hm
  obtain ⟨m1, a1, a2, a3, a4, a5⟩ := (h1 q).2 m hm
  obtain ⟨m2, b1, b2, b3, b4, b5⟩ := (h2 q).2 m1 a1
  refine ⟨m2, b1, b2.trans a2, b3.trans a3, ?_, ?_⟩
  · intro hs
    by_cases hs2 : S2 q
    · exact b4 hs2
    · rw [b5 hs2]
      rcases hs with hs | hs
      · exact a4 hs
      · exact absurd hs hs2
  · intro hs
    rw [b5 (fun h => hs (Or.inr h)), a5 (fun h => hs (Or.inl h))]

theorem Tree.repainted_setAt (v : V) :
    ∀ (q0 : List K) (r : Tree K V), Tree.Repainted v (fun q => q = q0) r (r.setAt q0 v)
  | [], .node x l cs => by
    intro q
    cases q with
    | nil =>
      refine ⟨fun h => by simp [Tree.nodeAt] at h, ?_⟩
      intro m hm
      simp only [Tree.nodeAt, Option.some.injEq] at hm
      subst hm
      exact ⟨.node v l cs, rfl, rfl, rfl, fun _ => rfl, fun h => absurd rfl h⟩
    | cons k ks =>
      have hsame : (Tree.setAt [] v (Tree.node x l cs)).nodeAt (k :: ks)
          = (Tree.node x l cs).nodeAt (k :: ks) := rfl
      rw [hsame]
      exact ⟨fun h => h, fun m hm => ⟨m, hm, rfl, rfl, fun h => by simp at h, fun _ => rfl⟩⟩
  | k0 :: ks0, .node x l cs => by
    intro q
    have hset : Tree.setAt (k0 :: ks0) v (Tree.node x l cs)
        = .node x l (cs.modify k0 (Tree.setAt ks0 v)) := rfl
    rw [hset]
    cases q with
    | nil =>
      refine ⟨fun h => by simp [Tree.nodeAt] at h, ?_⟩
      intro m hm
      simp only [Tree.nodeAt, Option.some.injEq] at hm
      subst hm
      exact ⟨_, rfl, by simp [Tree.children, Forest.keys_modify], rfl,
        fun h => by simp at h, fun _ => rfl⟩
    | cons k ks =>
      by_cases hk : k0 = k
      · subst hk
        simp only [Tree.nodeAt, Tree.children, Forest.find_modify_self]
        cases hf : cs.find k0 with
        | none => simp
        | some c =>
          have ih := Tree.repainted_setAt v ks0 c ks
          simp only [Option.map_some']
          refine ⟨ih.1, ?_⟩
          intro m hm
          obtain ⟨m2, h1, h2, h3, h4, h5⟩ := ih.2 m hm
          exact ⟨m2, h1, h2, h3, fun h => h4 (by simpa using h),
            fun h => h5 (fun h6 => h (by rw [h6]))⟩
      · simp only [Tree.nodeAt, Tree.children, Forest.find_modify_ne hk]
        exact ⟨fun h => h, fun m hm => ⟨m, hm, rfl, rfl,
          fun h => by
            simp only [List.cons.injEq] at h
            exact absurd h.1.symm hk,
          fun _ => rfl⟩⟩

theorem Tree.linked_setAt (v : V) :
    ∀ (q : List K) (r : Tree K V), r.linked = true →
      (r.setAt q v).linked = true ∧ (r.setAt q v).parent = r.parent
  | [], .node x l cs => fun h => ⟨h, rfl⟩
  | k :: ks, .node x l cs => by
    intro h
    simp only [Tree.linked] at h
    refine ⟨?_, rfl⟩
    simp only [Tree.setAt, Tree.modifyChild, Tree.linked]
    apply Forest.linked_modify _ _ _ cs h
    intro c hp hc
    have ih := Tree.linked_setAt v ks c hc
    exact ⟨by rw [ih.2, hp], ih.1⟩

theorem List.strict_initial_snoc (q q0 : List K) (k : K) :
    (∃ r : List K, r ≠ [] ∧ q ++ r = q0 ++ [k])
      ↔ (q = q0 ∨ ∃ r : List K, r ≠ [] ∧ q ++ r = q0) := by
  constructor
  · rintro ⟨r, hr, h⟩
    rw [← List.dropLast_append_getLast hr, ← List.append_assoc] at h
    have h2 := List.append_inj_left' h rfl
    by_cases hd : r.dropLast = []
    · rw [hd, List.append_nil] at h2
      exact Or.inl h2
    · exact Or.inr ⟨r.dropLast, hd, h2⟩
  · rintro (h | ⟨r, hr, h⟩)
    · exact ⟨[k], by simp, by rw [h]⟩
    · exact ⟨r ++ [k], by simp, by rw [← List.append_assoc, h]⟩

theorem Tree.setupFrom_spec (v : V) :
    ∀ (p : List K) (r : Tree K V), r.linked = true → r.parent = Link.self →
      (∃ n : Tree K V, r.nodeAt p = some n) →
      ∃ r2 : Tree K V, Tree.setupFrom (p.length + 1) r p v = some r2
        ∧ Tree.Repainted v (fun q => ∃ d : List K, d ≠ [] ∧ q ++ d = p) r r2 := by
  intro p
  induction p using List.reverseRecOn with
  | nil =>
    intro r _ hr _
    refine ⟨r, by simp [Tree.setupFrom, Tree.nodeAt, Tree.is_root, hr], ?_⟩
    apply Tree.Repainted.same
    rintro q ⟨d, hd, h⟩
    simp only [List.append_eq_nil] at h
    exact hd h.2
  | append_singleton q0 k ih =>
    intro r hl hr hn
    obtain ⟨n, hn⟩ := hn
    obtain ⟨pn, hpn, _⟩ := Tree.nodeAt_snoc hn
    have hown := (Tree.linked_nodeAt (q0 ++ [k]) r hl (by simp) hn).1
    have hup := Tree.up_snoc hn hown
    have hrep := Tree.repainted_setAt v q0 r
    have hl1 := Tree.linked_setAt v q0 r hl
    obtain ⟨pn2, hpn2, _⟩ := (hrep q0).2 pn hpn
    obtain ⟨r2, hr2, hrep2⟩ := ih (r.setAt q0 v) hl1.1 (by rw [hl1.2, hr]) ⟨pn2, hpn2⟩
    refine ⟨r2, ?_, ?_⟩
    · simp only [List.length_append, List.length_singleton, Tree.setupFrom, hn, Tree.is_root,
        hown, hup]
      simpa using hr2
    · exact (Tree.Repainted.trans hrep hrep2).congr
        (fun q => (List.strict_initial_snoc q q0 k).symm)

/-- C19 (`setup`).  In a tree built from a freshly constructed root by `insert`, `set` and
`erase`, `setup(v)` called on the node at path `p` returns, and afterwards the tree has a
node exactly where it had one, each with the same keys below it and the same `parent`;
every node strictly above `p` on the way to the root, the root included, holds `v`; every
other node, among them the node at `p` itself and everything below it, holds what it held
before.  Called on the root it leaves the tree as it was. -/
theorem setup_paints_ancestors [Zero V] (prog : List (List K × Action K V)) (p : List K)
    (v : V) (n : Tree K V) (hn : (Tree.build prog).nodeAt p = some n) :
    (∃ r2 : Tree K V, (Tree.build prog).setup p v = some r2
      ∧ ∀ q : List K,
          ((Tree.build prog).nodeAt q = none → r2.nodeAt q = none)
          ∧ ∀ m : Tree K V, (Tree.build prog).nodeAt q = some m →
              ∃ m2 : Tree K V, r2.nodeAt q = some m2
                ∧ m2.children.keys = m.children.keys
                ∧ m2.parent = m.parent
                ∧ ((∃ d : List K, d ≠ [] ∧ q ++ d = p) → m2.get = v)
                ∧ ((¬ ∃ d : List K, d ≠ [] ∧ q ++ d = p) → m2.get = m.get))
    ∧ (Tree.build prog : Tree K V).setup [] v = some (Tree.build prog) := by
  obtain ⟨hl, hr⟩ := Tree.linked_build (V := V) prog
  obtain ⟨r2, h1, h2⟩ := Tree.setupFrom_spec v p _ hl hr ⟨n, hn⟩
  refine ⟨⟨r2, h1, h2⟩, ?_⟩
  simp [Tree.setup, Tree.setupFrom, Tree.nodeAt, Tree.is_root, hr]

/-- Witness of C19: `setup(99)` on the node under `1, 2` of `copySource`. -/
theorem setup_paints_ancestors_witness :
    (∃ r2 : Tree Nat Int, copySource.setup [1, 2] 99 = some r2
      ∧ ∀ q : List Nat,
          (copySource.nodeAt q = none → r2.nodeAt q = none)
          ∧ ∀ m : Tree Nat Int, copySource.nodeAt q = some m →
              ∃ m2 : Tree Nat Int, r2.nodeAt q = some m2
                ∧ m2.children.keys = m.children.keys
                ∧ m2.parent = m.parent
                ∧ ((∃ d : List Nat, d ≠ [] ∧ q ++ d = [1, 2]) → m2.get = 99)
                ∧ ((¬ ∃ d : List Nat, d ≠ [] ∧ q ++ d = [1, 2]) → m2.get = m.get))
    ∧ copySource.setup [] 99 = some copySource :=
  setup_paints_ancestors [([1], .set 6), ([1, 2], .set 8), ([], .set 4)] [1, 2] 99
    (Tree.node 8 Link.owner Forest.nil) (by decide)

end Model

end oak
